import Mathlib

/-!
Mining simulation: chain relay over a time-ordered scheduler.

A shallow embedding of `main.cpp`: the `Miner` class (peer list, best chain,
fork choice, relay), `Connect`, and the driver in `main`.

Conventions of the embedding.

* A `Miner*` is an index into the array of miners (`World.miner`).
* A time point is an integer number of microseconds.
* A `double` is the rational number it stands for; the product of two `double`s
  is the exact product rounded as binary64 rounds (`toDouble`), and `(int)` of a
  `double` is the 32-bit conversion (`truncToInt`).
* `boost::chrono::system_clock::now()` is an ambient effect; it is modelled by a
  `SystemClock` that returns the next value of an arbitrary sequence of readings.
* A `boost::bind` closure handed to the scheduler is a value of type `Task`.
* `scheduler.h` is not among the sources; `CScheduler` follows the specification.
-/

namespace MiningSim

/-- Time point, in microseconds. -/
abbrev Time := Int

/-- The two closures that `main.cpp` binds and hands to the scheduler:
`bind(&Miner::FindBlock, &miner[which_miner], ref(simulator), i)` and
`bind(&Miner::ConsiderChain, i.first, ref(s), chain)`. -/
inductive Task where
  | FindBlock (target : Nat) (blockNumber : Int)
  | ConsiderChain (target : Nat) (chain : List Int)
deriving DecidableEq, Repr

/-- One pending task of the scheduler with its key (time, insertion sequence). -/
structure Entry where
  time : Time
  seq : Nat
  task : Task
deriving DecidableEq, Repr

/-- Modelled from the spec: the class `CScheduler` of `scheduler.h`, which is not
among the sources. It owns the pending tasks, keyed by (absolute time, insertion
sequence); the insertion sequence increases with every insertion. -/
structure CScheduler where
  taskQueue : List Entry := []
  nextSeq : Nat := 0
deriving DecidableEq, Repr

/-- Modelled from the spec: `schedule(task, time)` of the missing `scheduler.h`
inserts the task with the given time and the next insertion sequence number; it
never fails. -/
def CScheduler.schedule (s : CScheduler) (f : Task) (t : Time) : CScheduler :=
  { taskQueue := s.taskQueue ++ [{ time := t, seq := s.nextSeq, task := f }],
    nextSeq := s.nextSeq + 1 }

/-- Order of the keys (time, sequence): earlier time first, earlier insertion
first among equal times. -/
def Entry.keyLe (a b : Entry) : Bool :=
  decide (a.time < b.time) || (decide (a.time = b.time) && decide (a.seq ≤ b.seq))

/-- The entry with the smallest key among `e :: es`. -/
def minEntry : Entry → List Entry → Entry
  | e, [] => e
  | e, x :: xs => if e.keyLe x then minEntry e xs else minEntry x xs

/-- Modelled from the spec: one selection of the drain of the missing
`scheduler.h`: the pending task with the smallest (time, sequence) key is removed
from the pending set; `none` when nothing is pending. -/
def CScheduler.popMin (s : CScheduler) : Option (Entry × CScheduler) :=
  match s.taskQueue with
  | [] => none
  | e :: es =>
    let m := minEntry e es
    some (m, { s with taskQueue := (e :: es).erase m })

/-- The real-time clock: `readings n` is the value returned by the `n`-th call of
`boost::chrono::system_clock::now()`, `calls` the number of calls made so far. -/
structure SystemClock where
  readings : Nat → Time
  calls : Nat := 0

/-- One call of `system_clock::now()`: the value read and the clock afterwards. -/
def SystemClock.now (c : SystemClock) : Time × SystemClock :=
  (c.readings c.calls, { c with calls := c.calls + 1 })

/-- The class `Miner`: `best_chain` and the list `peers` of (peer, latency). -/
structure Miner where
  best_chain : List Int := []
  peers : List (Nat × Int) := []
deriving DecidableEq, Repr, Inhabited

namespace Miner

/-- Method `Miner::AddPeer`: `peers.push_back(std::make_pair(peer, latency))`. -/
def AddPeer (self : Miner) (peer : Nat) (latency : Int) : Miner :=
  { self with peers := self.peers ++ [(peer, latency)] }

/-- Method `Miner::RelayChain`: one clock read, then for every entry of `peers`, in
order, a `ConsiderChain` task for that peer carrying `chain` is scheduled at
`now + microseconds(latency)`. -/
def RelayChain (self : Miner) (s : CScheduler) (clk : SystemClock) (chain : List Int) :
    CScheduler × SystemClock :=
  let now := clk.now
  (self.peers.foldl (fun s i => s.schedule (Task.ConsiderChain i.1 chain) (now.1 + i.2)) s,
   now.2)

/-- Method `Miner::FindBlock`: append the block number to `best_chain`, copy the chain,
relay the copy. -/
def FindBlock (self : Miner) (s : CScheduler) (clk : SystemClock) (blockNumber : Int) :
    Miner × CScheduler × SystemClock :=
  let self1 : Miner := { self with best_chain := self.best_chain ++ [blockNumber] }
  let chain_copy := self1.best_chain
  (self1, self1.RelayChain s clk chain_copy)

/-- Method `Miner::ConsiderChain`: when the candidate is strictly longer than
`best_chain`, it becomes `best_chain` and is relayed; otherwise nothing happens. -/
def ConsiderChain (self : Miner) (s : CScheduler) (clk : SystemClock) (chain : List Int) :
    Miner × CScheduler × SystemClock :=
  if chain.length > self.best_chain.length then
    let self1 : Miner := { self with best_chain := chain }
    (self1, self1.RelayChain s clk chain)
  else
    (self, s, clk)

/-- Method `Miner::GetChainTip`: `-1` for an empty chain, else `best_chain.back()`. -/
def GetChainTip (self : Miner) : Int :=
  match self.best_chain.getLast? with
  | none => -1
  | some b => b

/-- Method `Miner::GetChainLen`: `best_chain.size()`. -/
def GetChainLen (self : Miner) : Nat :=
  self.best_chain.length

end Miner

/-- The objects that `main` owns: the array `miner`, the scheduler `simulator`
and the clock. A `Miner*` is an index into `miner`. -/
structure World where
  miner : List Miner
  simulator : CScheduler := {}
  clock : SystemClock

namespace World

/-- The miner that a pointer refers to. -/
def get (w : World) (m : Nat) : Miner :=
  w.miner.getD m default

/-- The call `m->AddPeer(peer, latency)`. -/
def AddPeer (w : World) (m peer : Nat) (latency : Int) : World :=
  { w with miner := w.miner.set m ((w.get m).AddPeer peer latency) }

/-- The call `m->RelayChain(simulator, chain)`. -/
def RelayChain (w : World) (m : Nat) (chain : List Int) : World :=
  let r := (w.get m).RelayChain w.simulator w.clock chain
  { w with simulator := r.1, clock := r.2 }

/-- The call `m->FindBlock(simulator, blockNumber)`. -/
def FindBlock (w : World) (m : Nat) (blockNumber : Int) : World :=
  let r := (w.get m).FindBlock w.simulator w.clock blockNumber
  { miner := w.miner.set m r.1, simulator := r.2.1, clock := r.2.2 }

/-- The call `m->ConsiderChain(simulator, chain)`. -/
def ConsiderChain (w : World) (m : Nat) (chain : List Int) : World :=
  let r := (w.get m).ConsiderChain w.simulator w.clock chain
  { miner := w.miner.set m r.1, simulator := r.2.1, clock := r.2.2 }

/-- Function `Connect(m1, m2, latency)`: `m1->AddPeer(m2, latency); m2->AddPeer(m1, latency);`. -/
def Connect (w : World) (m1 m2 : Nat) (latency : Int) : World :=
  (w.AddPeer m1 m2 latency).AddPeer m2 m1 latency

/-- Calling a bound closure. -/
def execTask (w : World) : Task → World
  | Task.FindBlock m blockNumber => w.FindBlock m blockNumber
  | Task.ConsiderChain m chain => w.ConsiderChain m chain

/-- Modelled from the spec: one iteration of the drain of the missing
`scheduler.h`: the pending task with the smallest key is removed, then executed
(its own insertions are pending for the next iteration); `none` when nothing is
pending. The result names the executed entry. -/
def step (w : World) : Option (Entry × World) :=
  match w.simulator.popMin with
  | none => none
  | some (e, s) => some (e, ({ w with simulator := s }).execTask e.task)

/-- Modelled from the spec: `serviceQueue()` of the missing `scheduler.h`, the
drain: iterate `step` until nothing is pending. The first argument bounds the
number of iterations; the result is the list of executed entries, in execution
order, and the final state. -/
def serviceQueue : Nat → World → List Entry × World
  | 0, w => ([], w)
  | fuel + 1, w =>
    match w.step with
    | none => ([], w)
    | some (e, w1) => ((e :: (serviceQueue fuel w1).1), (serviceQueue fuel w1).2)

end World

/-- The two samples that one iteration of the root event loop draws from the
random engine: `dist(rng)` and `block_time_gen()`. The exponential variate is a
`double` in the source; `block_time` is the rational number that the `double`
stands for. -/
structure Draw where
  which_miner : Nat
  block_time : ℚ

/-- The fraction `N / D` rounded to the nearest natural number, a tie going to the
even one. -/
def roundHalfEven (N D : Nat) : Nat :=
  if 2 * (N % D) < D then N / D
  else if D < 2 * (N % D) then N / D + 1
  else N / D + (N / D) % 2

/-- The number of the highest set bit of `n`, that is, the `l` with
`2 ^ l ≤ n < 2 ^ (l + 1)` for positive `n`; the first argument bounds the number of
halvings and is `n` itself where the function is used. -/
def log2Floor : Nat → Nat → Nat
  | 0, _ => 0
  | fuel + 1, n => if n < 2 then 0 else log2Floor fuel (n / 2) + 1

/-- The binary exponent of the positive fraction `a / b`: the `e` with
`2 ^ e ≤ a / b < 2 ^ (e + 1)`. -/
def binade (a b : Nat) : Int :=
  if a * 2 ^ (log2Floor b b - log2Floor a a) < b * 2 ^ (log2Floor a a - log2Floor b b) then
    (log2Floor a a : Int) - (log2Floor b b : Int) - 1
  else (log2Floor a a : Int) - (log2Floor b b : Int)

/-- The result of an arithmetic operation on `double`, of which `x` is the exact
value: `x` rounded to the nearest number of the binary64 format (53 significant
bits, least exponent -1022, subnormal numbers included), a tie going to the even
significand. Beyond the largest `double`, where the source has an infinity, the
rounded value is kept; `truncToInt` gives the same for both. -/
def toDouble (x : ℚ) : ℚ :=
  if x = 0 then 0
  else
    let a := x.num.natAbs
    let b := x.den
    let s : Int := max (binade a b) (-1022) - 52
    let m : ℚ :=
      if 0 ≤ s then ((roundHalfEven a (b * 2 ^ s.toNat) * 2 ^ s.toNat : Nat) : ℚ)
      else ((roundHalfEven (a * 2 ^ (-s).toNat) b : Nat) : ℚ) / ((2 ^ (-s).toNat : Nat) : ℚ)
    if x < 0 then -m else m

/-- The conversion `(int)t_delta` of a `double` to the 32-bit `int`: truncation
toward zero when the truncated value is an `int`. Otherwise the language leaves
the result undefined; the value here, `INT_MIN`, is what the conversion
instruction of x86-64 returns. -/
def truncToInt (x : ℚ) : Int :=
  if -2147483648 ≤ Int.tdiv x.num x.den ∧ Int.tdiv x.num x.den ≤ 2147483647 then
    Int.tdiv x.num x.den
  else -2147483648

/-- The root event loop of `main`, `for (int i = 0; i < n_blocks; i++)`: `count`
is the number of iterations left, `i` the loop variable, `t` the time of the
previous root event. -/
def scheduleRoots (draws : Nat → Draw) : Nat → Nat → Time → CScheduler → CScheduler
  | 0, _, _, s => s
  | count + 1, i, t, s =>
    let which_miner := (draws i).which_miner
    let t_delta := toDouble ((draws i).block_time * 600)
    let t_found := t + truncToInt t_delta
    scheduleRoots draws count (i + 1) t_found
      (s.schedule (Task.FindBlock which_miner (i : Int)) t_found)

/-- The topology built by `main`: miner 0 connected to miners 1, 2, 3, and
miners 1 to 6 connected to each other, every latency 1. -/
def buildTopology (w : World) : World :=
  let w1 := ((w.Connect 0 1 1).Connect 0 2 1).Connect 0 3 1
  (List.range' 1 6).foldl
    (fun w i => (List.range' (i + 1) (6 - i)).foldl (fun w j => w.Connect i j 1) w) w1

/-- The state of `main` when it calls `simulator.serviceQueue()`: seven miners,
the topology, one clock read, and `n_blocks` root events. -/
def mainSetup (n_blocks : Int) (draws : Nat → Draw) (readings : Nat → Time) : World :=
  let w1 := buildTopology { miner := List.replicate 7 {}, clock := { readings := readings } }
  let t := w1.clock.now
  { w1 with
    simulator := scheduleRoots draws n_blocks.toNat 0 t.1 w1.simulator
    clock := t.2 }

/-- The (tip, length) pair that `main` prints for each miner, in index order. -/
def report (w : World) : List (Int × Nat) :=
  w.miner.map (fun m => (m.GetChainTip, m.GetChainLen))

/-- The run of `main`: setup, drain, report. `fuel` bounds the number of tasks
that the drain executes. -/
def main (n_blocks : Int) (draws : Nat → Draw) (readings : Nat → Time) (fuel : Nat) :
    List (Int × Nat) :=
  report ((mainSetup n_blocks draws readings).serviceQueue fuel).2

/-- A sequence of calls `Connect(m1, m2, latency)`, in order. -/
def connectAll (calls : List (Nat × Nat × Int)) (w : World) : World :=
  calls.foldl (fun w c => w.Connect c.1 c.2.1 c.2.2) w

/-- Along the first `fuel` iterations of the drain from `w`, every task that
reads the clock (that is, every task that relays) reads a value that is not
earlier than the time the task was scheduled for. -/
def clockNotBehind : Nat → World → Bool
  | 0, _ => true
  | fuel + 1, w =>
    match w.step with
    | none => true
    | some (e, w1) =>
      (decide (w1.clock.calls = w.clock.calls) ||
          decide (e.time ≤ w.clock.readings w.clock.calls)) &&
        clockNotBehind fuel w1

/-- The array `probabilities` of `main`, from which the categorical distribution
`dist` is built: `probabilities[0] = 0.3` and `probabilities[i] = 0.1` for `i`
from 1 to 6. The `double` constants are exact rationals here. -/
def probabilities : List ℚ :=
  [3 / 10, 1 / 10, 1 / 10, 1 / 10, 1 / 10, 1 / 10, 1 / 10]

/-- Execution of one pending entry, whichever it is: the entry is removed from
the pending set, then its closure is called. -/
def World.runEntry (w : World) (e : Entry) : World :=
  ({ w with simulator :=
      { w.simulator with taskQueue := w.simulator.taskQueue.erase e } }).execTask e.task

/-- Execution of pending tasks in an arbitrary order: each number of the list
picks the pending entry at that position of the pending list, which is executed; a
number that is no position is skipped. -/
def World.runChoices : List Nat → World → World
  | [], w => w
  | i :: rest, w =>
    match w.simulator.taskQueue[i]? with
    | none => World.runChoices rest w
    | some e => World.runChoices rest (w.runEntry e)

/-- Miner `a` has an entry for miner `b` in its peer list. -/
def World.linked (w : World) (a b : Nat) : Prop :=
  b ∈ (w.get a).peers.map Prod.fst

/-- The times of the root events that the loop of `main` computes: `count`
iterations left, loop variable `i`, previous time `t`; every time is the previous
one plus `(int)(block_time_gen() * 600.0)`, the product being that of `double`. -/
def rootTimes (draws : Nat → Draw) : Nat → Nat → Time → List Time
  | 0, _, _ => []
  | count + 1, i, t =>
    (t + truncToInt (toDouble ((draws i).block_time * 600))) ::
      rootTimes draws count (i + 1) (t + truncToInt (toDouble ((draws i).block_time * 600)))

/-- The peer list that the specification describes for node `a` of the
seven-node topology: node 0 is linked with nodes 1, 2, 3, the nodes 1 to 6 are
linked pairwise, no node is linked with itself, every latency is 1; the peers are
listed once each, in increasing order. -/
def specPeers (a : Nat) : List (Nat × Int) :=
  ((List.range 7).filter (fun b =>
      decide (b ≠ a) &&
        ((decide (a = 0) && decide (1 ≤ b) && decide (b ≤ 3)) ||
         (decide (b = 0) && decide (1 ≤ a) && decide (a ≤ 3)) ||
         (decide (1 ≤ a) && decide (1 ≤ b))))).map (fun b => (b, (1 : Int)))

/-- Whether a closure is a root task, a bound `FindBlock`. -/
def Task.isFindBlock : Task → Bool
  | Task.FindBlock _ _ => true
  | Task.ConsiderChain _ _ => false

/-- The length of the chain that a closure carries; 0 for a bound `FindBlock`. -/
def Task.chainLen : Task → Nat
  | Task.FindBlock _ _ => 0
  | Task.ConsiderChain _ chain => chain.length

/-- The number of pending root tasks. -/
def World.pendingFindBlocks (w : World) : Nat :=
  w.simulator.taskQueue.countP (fun e => e.task.isFindBlock)

/-- A bound on the length of every chain that can come up in a run from `w`: the
lengths of all best chains and of all pending chains, plus one for every pending
root task. -/
def World.lengthBound (w : World) : Nat :=
  (w.miner.map (fun m => m.best_chain.length)).sum +
    (w.simulator.taskQueue.map (fun e => e.task.chainLen)).sum + w.pendingFindBlocks

/-- The measure of what is left to do when no chain can get longer than `B`: the
number of pending tasks, plus, for every miner and every length that its best
chain can still gain, one relay (at most the sum of all degrees, plus one). -/
def World.workLeft (B : Nat) (w : World) : Nat :=
  w.simulator.taskQueue.length +
    ((w.miner.map (fun m => m.peers.length)).sum + 1) *
      (w.miner.map (fun m => B - m.best_chain.length)).sum

/-- A number of iterations after which the drain from `w` has stopped. -/
def World.drainBound (w : World) : Nat :=
  w.workLeft w.lengthBound

/-- The entry with its time moved by `c`. -/
def Entry.shift (c : Time) (e : Entry) : Entry :=
  { e with time := e.time + c }

/-- The scheduler with the times of all pending tasks moved by `c`. -/
def CScheduler.shift (c : Time) (s : CScheduler) : CScheduler :=
  { taskQueue := s.taskQueue.map (Entry.shift c), nextSeq := s.nextSeq }

/-- The state in which the clock is ahead by `c`: every reading of the clock and
the time of every pending task are moved by `c`. -/
def World.shift (c : Time) (w : World) : World :=
  { miner := w.miner,
    simulator := w.simulator.shift c,
    clock := { readings := fun i => w.clock.readings i + c, calls := w.clock.calls } }

/-- The block number that a root task carries. -/
def Task.blockNumber? : Task → Option Int
  | Task.FindBlock _ blockNumber => some blockNumber
  | Task.ConsiderChain _ _ => none

/-- The block numbers of the pending root tasks: the blocks not found yet. -/
def World.pendingBlocks (w : World) : List Int :=
  w.simulator.taskQueue.filterMap (fun e => e.task.blockNumber?)

/-- A chain is a history of found blocks, out of `n` blocks in all: it repeats no
block number, and each of its block numbers lies in `0 .. n - 1` and belongs to
no pending root task (its root task has been executed). -/
def World.isHistory (n : Nat) (w : World) (chain : List Int) : Prop :=
  chain.Nodup ∧ ∀ b ∈ chain, 0 ≤ b ∧ b < (n : Int) ∧ b ∉ w.pendingBlocks

/-- The pending root tasks carry distinct block numbers in `0 .. n - 1`, and
every best chain and every chain carried by a pending task is a history of found
blocks. -/
def World.historyOk (n : Nat) (w : World) : Prop :=
  w.pendingBlocks.Nodup ∧
  (∀ b ∈ w.pendingBlocks, 0 ≤ b ∧ b < (n : Int)) ∧
  (∀ m ∈ w.miner, w.isHistory n m.best_chain) ∧
  (∀ e ∈ w.simulator.taskQueue, ∀ t c, e.task = Task.ConsiderChain t c → w.isHistory n c)

/-- Every link has its relay delivered or pending: for every miner `a` and every
peer `b` of `a`, the best chain of `b` is at least as long as the best chain of
`a`, or a `ConsiderChain` task for `b` is pending with a chain at least as long
as the best chain of `a`. -/
def World.relayed (w : World) : Prop :=
  ∀ a b, w.linked a b →
    (w.get a).best_chain.length ≤ (w.get b).best_chain.length ∨
      ∃ e ∈ w.simulator.taskQueue, ∃ c, e.task = Task.ConsiderChain b c ∧
        (w.get a).best_chain.length ≤ c.length

/-- The tasks that a relay of `chain` by a miner with peer list `peers` adds to the
pending set when the clock reads `now` and the next insertion sequence is `seq`. -/
def relayEntries (now : Time) (chain : List Int) : Nat → List (Nat × Int) → List Entry
  | _, [] => []
  | seq, p :: ps =>
    { time := now + p.2, seq := seq, task := Task.ConsiderChain p.1 chain } ::
      relayEntries now chain (seq + 1) ps

theorem foldl_schedule (now : Time) (chain : List Int) (ps : List (Nat × Int)) (s : CScheduler) :
    ps.foldl (fun s i => s.schedule (Task.ConsiderChain i.1 chain) (now + i.2)) s =
      { taskQueue := s.taskQueue ++ relayEntries now chain s.nextSeq ps,
        nextSeq := s.nextSeq + ps.length } := by
  induction ps generalizing s with
  | nil => simp [relayEntries]
  | cons p ps ih =>
    rw [List.foldl_cons, ih]
    simp only [CScheduler.schedule, relayEntries, List.length_cons, List.append_assoc,
      List.singleton_append, CScheduler.mk.injEq, true_and]
    omega

theorem relayEntries_length (now : Time) (chain : List Int) (seq : Nat) (ps : List (Nat × Int)) :
    (relayEntries now chain seq ps).length = ps.length := by
  induction ps generalizing seq with
  | nil => rfl
  | cons p ps ih => simp [relayEntries, ih]

theorem relayEntries_map (now : Time) (chain : List Int) (seq : Nat) (ps : List (Nat × Int)) :
    (relayEntries now chain seq ps).map (fun e => (e.time, e.task)) =
      ps.map (fun p => (now + p.2, Task.ConsiderChain p.1 chain)) := by
  induction ps generalizing seq with
  | nil => rfl
  | cons p ps ih => simp [relayEntries, ih]

theorem relayEntries_seq (now : Time) (chain : List Int) (seq : Nat) (ps : List (Nat × Int)) :
    (relayEntries now chain seq ps).map (fun e => e.seq) = List.range' seq ps.length := by
  induction ps generalizing seq with
  | nil => rfl
  | cons p ps ih => simp [relayEntries, ih, List.range']

theorem relayChain_eq (self : Miner) (s : CScheduler) (clk : SystemClock) (chain : List Int) :
    self.RelayChain s clk chain =
      ({ taskQueue := s.taskQueue ++
            relayEntries (clk.readings clk.calls) chain s.nextSeq self.peers,
         nextSeq := s.nextSeq + self.peers.length },
       { clk with calls := clk.calls + 1 }) := by
  simp [Miner.RelayChain, SystemClock.now, foldl_schedule]

theorem getD_set (l : List Miner) (m k : Nat) (x : Miner) :
    (l.set m x).getD k default = if m = k ∧ m < l.length then x else l.getD k default := by
  simp only [List.getD_eq_getElem?_getD, List.getElem?_set]
  by_cases h : m = k
  · subst h
    by_cases h2 : m < l.length
    · simp [h2]
    · simp [h2, List.getElem?_eq_none (Nat.le_of_not_lt h2)]
  · simp [h]

theorem get_AddPeer (w : World) (m k peer : Nat) (latency : Int) :
    (w.AddPeer m peer latency).get k =
      if m = k ∧ m < w.miner.length then (w.get m).AddPeer peer latency else w.get k := by
  simp only [World.AddPeer, World.get, getD_set]

theorem get_FindBlock (w : World) (m k : Nat) (blockNumber : Int) :
    (w.FindBlock m blockNumber).get k =
      if m = k ∧ m < w.miner.length then
        { w.get m with best_chain := (w.get m).best_chain ++ [blockNumber] }
      else w.get k := by
  simp only [World.FindBlock, World.get, getD_set, Miner.FindBlock]

theorem get_ConsiderChain (w : World) (m k : Nat) (chain : List Int) :
    (w.ConsiderChain m chain).get k =
      if m = k ∧ m < w.miner.length ∧ (w.get m).best_chain.length < chain.length then
        { w.get m with best_chain := chain }
      else w.get k := by
  have h1 : (w.ConsiderChain m chain).get k =
      (w.miner.set m ((w.get m).ConsiderChain w.simulator w.clock chain).1).getD k default := rfl
  rw [h1, getD_set]
  by_cases hlen : (w.get m).best_chain.length < chain.length
  · have h2 : ((w.get m).ConsiderChain w.simulator w.clock chain).1 =
        { w.get m with best_chain := chain } := by
      unfold Miner.ConsiderChain
      rw [if_pos hlen]
    rw [h2]
    by_cases hm : m = k ∧ m < w.miner.length
    · rw [if_pos hm, if_pos ⟨hm.1, hm.2, hlen⟩]
    · have hm2 : ¬ (m = k ∧ m < w.miner.length ∧ (w.get m).best_chain.length < chain.length) :=
        fun h => hm ⟨h.1, h.2.1⟩
      rw [if_neg hm, if_neg hm2]
      rfl
  · have h2 : ((w.get m).ConsiderChain w.simulator w.clock chain).1 = w.get m := by
      unfold Miner.ConsiderChain
      rw [if_neg hlen]
    have hm2 : ¬ (m = k ∧ m < w.miner.length ∧ (w.get m).best_chain.length < chain.length) :=
      fun h => hlen h.2.2
    rw [h2, if_neg hm2]
    by_cases hm : m = k ∧ m < w.miner.length
    · rw [if_pos hm, hm.1]
    · rw [if_neg hm]
      rfl

theorem get_RelayChain (w : World) (m k : Nat) (chain : List Int) :
    (w.RelayChain m chain).get k = w.get k := rfl

theorem get_execTask_length (w : World) (t : Task) (k : Nat) :
    (w.get k).best_chain.length ≤ ((w.execTask t).get k).best_chain.length := by
  cases t with
  | FindBlock m b =>
    simp only [World.execTask, get_FindBlock]
    split
    · rename_i h
      rw [h.1]
      simp
    · exact Nat.le_refl _
  | ConsiderChain m c =>
    simp only [World.execTask, get_ConsiderChain]
    split
    · rename_i h
      rw [← h.1]
      exact Nat.le_of_lt h.2.2
    · exact Nat.le_refl _

theorem get_execTask_peers (w : World) (t : Task) (k : Nat) :
    ((w.execTask t).get k).peers = (w.get k).peers := by
  cases t with
  | FindBlock m b =>
    simp only [World.execTask, get_FindBlock]
    split
    · rename_i h
      rw [h.1]
    · rfl
  | ConsiderChain m c =>
    simp only [World.execTask, get_ConsiderChain]
    split
    · rename_i h
      rw [h.1]
    · rfl

theorem step_get_length (w w1 : World) (e : Entry) (h : w.step = some (e, w1)) (k : Nat) :
    (w.get k).best_chain.length ≤ (w1.get k).best_chain.length := by
  unfold World.step at h
  split at h
  · exact absurd h (by simp)
  · rename_i e0 s0 _
    simp only [Option.some.injEq, Prod.mk.injEq] at h
    rw [← h.2]
    exact get_execTask_length { w with simulator := s0 } e0.task k

theorem serviceQueue_get_length (fuel : Nat) (w : World) (k : Nat) :
    (w.get k).best_chain.length ≤ ((w.serviceQueue fuel).2.get k).best_chain.length := by
  induction fuel generalizing w with
  | zero => exact Nat.le_refl _
  | succ n ih =>
    unfold World.serviceQueue
    split
    · exact Nat.le_refl _
    · rename_i e w1 h
      exact Nat.le_trans (step_get_length w w1 e h k) (ih w1)

/-- C1. Strict fork choice: when the candidate is strictly longer than the best
chain, `ConsiderChain` makes the candidate the best chain (and keeps the peer
list); when the candidate is not longer, the miner, the scheduler (pending tasks
and insertion sequence) and the clock are returned as they were, so the state is
unchanged and no task is scheduled. -/
theorem considerChain_strict_fork_choice (self : Miner) (s : CScheduler) (clk : SystemClock)
    (chain : List Int) :
    (self.best_chain.length < chain.length →
      (self.ConsiderChain s clk chain).1 = { self with best_chain := chain }) ∧
    (chain.length ≤ self.best_chain.length →
      self.ConsiderChain s clk chain = (self, s, clk)) := by
  constructor
  · intro h
    simp [Miner.ConsiderChain, h]
  · intro h
    simp [Miner.ConsiderChain, Nat.not_lt.mpr h]

/-- C2. Fan-out: a relay (by `RelayChain` itself, by `FindBlock`, or by
`ConsiderChain` with a strictly longer candidate) appends to the pending tasks
exactly one new task per entry of the peer list, in the order of the list
(duplicates included): the new tasks are as many as the peer list is long, the
task for an entry (peer, latency) is `ConsiderChain` on that peer with the relayed
chain, at the time read from the clock by the relay plus the latency, and the
tasks pending before are kept. -/
theorem relay_fan_out (self : Miner) (s : CScheduler) (clk : SystemClock) (chain : List Int)
    (blockNumber : Int) :
    (∀ (now : Time) (c : List Int) (seq : Nat) (ps : List (Nat × Int)),
      (relayEntries now c seq ps).length = ps.length ∧
      (relayEntries now c seq ps).map (fun e => (e.time, e.task)) =
        ps.map (fun p => (now + p.2, Task.ConsiderChain p.1 c))) ∧
    (self.RelayChain s clk chain).1.taskQueue =
      s.taskQueue ++ relayEntries clk.now.1 chain s.nextSeq self.peers ∧
    (self.FindBlock s clk blockNumber).2.1.taskQueue =
      s.taskQueue ++
        relayEntries clk.now.1 (self.best_chain ++ [blockNumber]) s.nextSeq self.peers ∧
    (self.best_chain.length < chain.length →
      (self.ConsiderChain s clk chain).2.1.taskQueue =
        s.taskQueue ++ relayEntries clk.now.1 chain s.nextSeq self.peers) := by
  refine ⟨fun now c seq ps => ⟨relayEntries_length now c seq ps, relayEntries_map now c seq ps⟩,
    ?_, ?_, ?_⟩
  · simp [relayChain_eq, SystemClock.now]
  · simp [Miner.FindBlock, relayChain_eq, SystemClock.now]
  · intro h
    simp [Miner.ConsiderChain, h, relayChain_eq, SystemClock.now]

/-- C4. Discovery: for every miner and every block number, `FindBlock` makes the
best chain the previous best chain with the block number appended (the length
grows by one, the tip is the block number), keeps the peer list, and every task
it schedules carries exactly the resulting best chain. -/
theorem findBlock_appends_and_relays (self : Miner) (s : CScheduler) (clk : SystemClock)
    (blockNumber : Int) :
    (self.FindBlock s clk blockNumber).1.best_chain = self.best_chain ++ [blockNumber] ∧
    (self.FindBlock s clk blockNumber).1.GetChainLen = self.GetChainLen + 1 ∧
    (self.FindBlock s clk blockNumber).1.GetChainTip = blockNumber ∧
    (self.FindBlock s clk blockNumber).1.peers = self.peers ∧
    (self.FindBlock s clk blockNumber).2.1.taskQueue =
      s.taskQueue ++ relayEntries clk.now.1 (self.FindBlock s clk blockNumber).1.best_chain
        s.nextSeq self.peers ∧
    (∀ (now : Time) (c : List Int) (seq : Nat) (ps : List (Nat × Int)),
      (relayEntries now c seq ps).map (fun e => e.task) =
        ps.map (fun p => Task.ConsiderChain p.1 c)) := by
  refine ⟨rfl, ?_, ?_, rfl, ?_, ?_⟩
  · simp [Miner.FindBlock, Miner.GetChainLen]
  · simp [Miner.FindBlock, Miner.GetChainTip]
  · simp [Miner.FindBlock, relayChain_eq, SystemClock.now]
  · intro now c seq ps
    have h := congrArg (List.map Prod.snd) (relayEntries_map now c seq ps)
    simpa [List.map_map, Function.comp_def] using h

/-- C6. Idempotence of delivery: after `ConsiderChain` has delivered a chain to a
miner, delivering the same chain again (with any scheduler state and any clock)
returns the miner, the scheduler and the clock as they were; more generally a
delivery of a chain that is not longer than the best chain changes nothing and
schedules nothing. -/
theorem considerChain_idempotent (self : Miner) (s s2 : CScheduler) (clk clk2 : SystemClock)
    (chain : List Int) :
    (self.ConsiderChain s clk chain).1.ConsiderChain s2 clk2 chain =
      ((self.ConsiderChain s clk chain).1, s2, clk2) ∧
    (self.ConsiderChain s clk chain).1.ConsiderChain (self.ConsiderChain s clk chain).2.1
        (self.ConsiderChain s clk chain).2.2 chain = self.ConsiderChain s clk chain ∧
    (chain.length ≤ self.best_chain.length →
      self.ConsiderChain s clk chain = (self, s, clk)) := by
  have key : ∀ (m : Miner) (t : CScheduler) (c : SystemClock),
      chain.length ≤ m.best_chain.length → m.ConsiderChain t c chain = (m, t, c) := by
    intro m t c h
    simp [Miner.ConsiderChain, Nat.not_lt.mpr h]
  have len : chain.length ≤ (self.ConsiderChain s clk chain).1.best_chain.length := by
    unfold Miner.ConsiderChain
    split
    · simp
    · simp only
      omega
  exact ⟨key _ _ _ len, key _ _ _ len, key _ _ _⟩

/-- C7. Queries: `GetChainTip` is `-1` for an empty best chain and the last
element of the best chain otherwise; `GetChainLen` is the number of elements of
the best chain. Both are functions of the miner alone that return a value and no
state: the miner, the peers and the scheduler are not outputs of a query. -/
theorem queries_read_best_chain (self : Miner) :
    (self.best_chain = [] → self.GetChainTip = -1) ∧
    (∀ h : self.best_chain ≠ [], self.GetChainTip = self.best_chain.getLast h) ∧
    self.GetChainLen = self.best_chain.length := by
  refine ⟨?_, ?_, rfl⟩
  · intro h
    simp [Miner.GetChainTip, h]
  · intro h
    simp [Miner.GetChainTip, List.getLast?_eq_getLast _ h]

theorem length_AddPeer (w : World) (m peer : Nat) (latency : Int) :
    (w.AddPeer m peer latency).miner.length = w.miner.length := by
  simp [World.AddPeer]

theorem peers_Connect (w : World) (m1 m2 : Nat) (latency : Int) (h1 : m1 < w.miner.length)
    (h2 : m2 < w.miner.length) (k : Nat) :
    ((w.Connect m1 m2 latency).get k).peers =
      (w.get k).peers ++ (if k = m1 then [(m2, latency)] else []) ++
        (if k = m2 then [(m1, latency)] else []) := by
  unfold World.Connect
  rw [get_AddPeer, length_AddPeer]
  by_cases hk2 : k = m2
  · subst hk2
    rw [if_pos ⟨rfl, h2⟩, get_AddPeer]
    by_cases hk1 : k = m1
    · subst hk1
      simp [Miner.AddPeer, h1]
    · simp [Miner.AddPeer, hk1, Ne.symm hk1]
  · have hn : ¬ (m2 = k ∧ m2 < w.miner.length) := fun h => hk2 h.1.symm
    rw [if_neg hn, get_AddPeer]
    by_cases hk1 : k = m1
    · subst hk1
      simp [Miner.AddPeer, h1, hk2]
    · simp [hk1, Ne.symm hk1, hk2]

theorem get_peers_of_empty (w : World) (h : ∀ m ∈ w.miner, m.peers = []) (k : Nat) :
    (w.get k).peers = [] := by
  unfold World.get
  rw [List.getD_eq_getElem?_getD]
  by_cases hk : k < w.miner.length
  · rw [List.getElem?_eq_getElem hk]
    exact h _ (List.getElem_mem hk)
  · rw [List.getElem?_eq_none (Nat.le_of_not_lt hk)]
    rfl

theorem count_edge (A B x y : Nat) (L l : Int) :
    (if A = x then [(y, l)] else []).count (B, L) =
      (if B = y then [(x, l)] else []).count (A, L) := by
  by_cases h1 : A = x
  · by_cases h2 : B = y
    · subst h1
      subst h2
      simp [List.count_singleton]
    · have h2b : ¬ y = B := fun h => h2 h.symm
      simp [h1, h2, h2b, List.count_singleton]
  · have h1b : ¬ x = A := fun h => h1 h.symm
    by_cases h2 : B = y
    · simp [h1, h1b, h2, List.count_singleton]
    · simp [h1, h2]

theorem connectAll_symmetric (calls : List (Nat × Nat × Int)) (w : World)
    (hrange : ∀ c ∈ calls, c.1 < w.miner.length ∧ c.2.1 < w.miner.length)
    (hsym : ∀ (A B : Nat) (L : Int),
      (w.get A).peers.count (B, L) = (w.get B).peers.count (A, L)) :
    ∀ (A B : Nat) (L : Int),
      ((connectAll calls w).get A).peers.count (B, L) =
        ((connectAll calls w).get B).peers.count (A, L) := by
  induction calls generalizing w with
  | nil => exact hsym
  | cons c cs ih =>
    have hc := hrange c (List.mem_cons_self _ _)
    have hlen : (w.Connect c.1 c.2.1 c.2.2).miner.length = w.miner.length := by
      simp [World.Connect, length_AddPeer]
    apply ih (w.Connect c.1 c.2.1 c.2.2)
    · intro d hd
      rw [hlen]
      exact hrange d (List.mem_cons_of_mem _ hd)
    · intro A B L
      rw [peers_Connect w _ _ _ hc.1 hc.2, peers_Connect w _ _ _ hc.1 hc.2]
      simp only [List.count_append]
      rw [hsym A B L, count_edge A B c.1 c.2.1 L c.2.2, count_edge A B c.2.1 c.1 L c.2.2]
      omega

/-- C3 (as the code has it). Relay time base: the tasks that a relay adds are
timed at the value returned by the clock read made inside `RelayChain` plus the
latency of the entry, for `RelayChain` itself and for the execution of a
`FindBlock` task or of an adopting `ConsiderChain` task; the relay consumes one
clock reading; and the drain executes the removed entry's closure only, so the
time of the executing task is no input of the relay. -/
theorem relay_time_is_clock_reading (w : World) (m : Nat) (chain : List Int)
    (blockNumber : Int) :
    (w.RelayChain m chain).simulator.taskQueue =
      w.simulator.taskQueue ++
        relayEntries (w.clock.readings w.clock.calls) chain w.simulator.nextSeq (w.get m).peers ∧
    (w.RelayChain m chain).clock.calls = w.clock.calls + 1 ∧
    (w.execTask (Task.FindBlock m blockNumber)).simulator.taskQueue =
      w.simulator.taskQueue ++
        relayEntries (w.clock.readings w.clock.calls) ((w.get m).best_chain ++ [blockNumber])
          w.simulator.nextSeq (w.get m).peers ∧
    ((w.get m).best_chain.length < chain.length →
      (w.execTask (Task.ConsiderChain m chain)).simulator.taskQueue =
        w.simulator.taskQueue ++
          relayEntries (w.clock.readings w.clock.calls) chain w.simulator.nextSeq
            (w.get m).peers) ∧
    (∀ (now : Time) (c : List Int) (seq : Nat) (ps : List (Nat × Int)),
      (relayEntries now c seq ps).map (fun e => e.time) = ps.map (fun p => now + p.2)) ∧
    (∀ (e : Entry) (s : CScheduler), w.simulator.popMin = some (e, s) →
      ∀ t : Time, w.step = some (e, ({ w with simulator := s }).execTask
        ({ e with time := t }).task)) := by
  refine ⟨?_, ?_, ?_, ?_, ?_, ?_⟩
  · simp [World.RelayChain, relayChain_eq]
  · simp [World.RelayChain, relayChain_eq]
  · simp [World.execTask, World.FindBlock, Miner.FindBlock, relayChain_eq]
  · intro h
    simp [World.execTask, World.ConsiderChain, Miner.ConsiderChain, h, relayChain_eq]
  · intro now c seq ps
    have h := congrArg (List.map Prod.fst) (relayEntries_map now c seq ps)
    simpa [List.map_map, Function.comp_def] using h
  · intro e s h t
    simp [World.step, h]

/-- C3, counterexample. In the run of `main` with one block, found by miner 0
after one mean interval, and a clock that returns 0, 1, 2, ..., the first executed
task is the root `FindBlock` task with time 600; the three tasks it schedules
over edges of latency 1 have time 2 (the clock reading 1, plus 1), not 601. -/
theorem relay_time_base_counterexample :
    ((mainSetup 1 (fun _ => { which_miner := 0, block_time := 1 }) (fun n => (n : Int))).step).map
        (fun r => (r.1.time, r.1.task,
          r.2.simulator.taskQueue.map (fun e => (e.time, e.task)))) =
      some (600, Task.FindBlock 0 0,
        [(2, Task.ConsiderChain 1 [0]), (2, Task.ConsiderChain 2 [0]),
         (2, Task.ConsiderChain 3 [0])]) ∧
    (2 : Time) ≠ 600 + 1 := by
  decide!

/-- C5. Chain monotonicity: for every miner `k`, each operation (`AddPeer`,
`Connect`, `FindBlock`, `ConsiderChain`, `RelayChain`, on any miner `m`) and every
drain of any number of tasks leaves the length of the best chain of `k` at least
what it was; and when `ConsiderChain` changes the best chain of `k`, it was
executed on `k` with a candidate strictly longer than the best chain of `k`, and
the new best chain is that candidate. -/
theorem chain_length_monotone (w : World) (m k peer : Nat) (latency : Int) (blockNumber : Int)
    (chain : List Int) (fuel : Nat) :
    (w.get k).best_chain.length ≤ ((w.AddPeer m peer latency).get k).best_chain.length ∧
    (w.get k).best_chain.length ≤ ((w.Connect m peer latency).get k).best_chain.length ∧
    (w.get k).best_chain.length ≤ ((w.FindBlock m blockNumber).get k).best_chain.length ∧
    (w.get k).best_chain.length ≤ ((w.ConsiderChain m chain).get k).best_chain.length ∧
    (w.get k).best_chain.length ≤ ((w.RelayChain m chain).get k).best_chain.length ∧
    (w.get k).best_chain.length ≤ ((w.serviceQueue fuel).2.get k).best_chain.length ∧
    (((w.ConsiderChain m chain).get k).best_chain ≠ (w.get k).best_chain →
      m = k ∧ (w.get k).best_chain.length < chain.length ∧
        ((w.ConsiderChain m chain).get k).best_chain = chain) := by
  have hadd : ∀ (v : World) (a b : Nat) (l : Int),
      ((v.AddPeer a b l).get k).best_chain = (v.get k).best_chain := by
    intro v a b l
    rw [get_AddPeer]
    split
    · rename_i h
      rw [h.1]
      rfl
    · rfl
  refine ⟨?_, ?_, ?_, ?_, ?_, ?_, ?_⟩
  · rw [hadd]
  · unfold World.Connect
    rw [hadd, hadd]
  · exact get_execTask_length w (Task.FindBlock m blockNumber) k
  · exact get_execTask_length w (Task.ConsiderChain m chain) k
  · exact Nat.le_refl _
  · exact serviceQueue_get_length fuel w k
  · intro h
    rw [get_ConsiderChain] at h ⊢
    split
    · rename_i hc
      rw [← hc.1]
      exact ⟨rfl, hc.2.2, rfl⟩
    · rename_i hc
      rw [if_neg hc] at h
      exact absurd rfl h

/-- C8 (as the code has it). `AddPeer` on an existing miner `m` appends the
single entry (peer, latency) at the end of the peer list of `m`, keeps the best
chain of `m`, leaves every other miner (the peer too, when it is another miner)
and the scheduler unchanged, and accepts every call: the same call twice appends
two entries and raises the degree by two. -/
theorem addPeer_one_directed_edge (w : World) (m peer : Nat) (latency : Int)
    (h : m < w.miner.length) :
    ((w.AddPeer m peer latency).get m).peers = (w.get m).peers ++ [(peer, latency)] ∧
    ((w.AddPeer m peer latency).get m).best_chain = (w.get m).best_chain ∧
    (∀ k, k ≠ m → (w.AddPeer m peer latency).get k = w.get k) ∧
    (w.AddPeer m peer latency).simulator = w.simulator ∧
    (((w.AddPeer m peer latency).AddPeer m peer latency).get m).peers =
      (w.get m).peers ++ [(peer, latency), (peer, latency)] ∧
    (((w.AddPeer m peer latency).AddPeer m peer latency).get m).peers.length =
      (w.get m).peers.length + 2 := by
  have h1 : ∀ v : World, m < v.miner.length →
      (v.AddPeer m peer latency).get m = (v.get m).AddPeer peer latency := by
    intro v hv
    rw [get_AddPeer, if_pos ⟨rfl, hv⟩]
  have h2 : m < (w.AddPeer m peer latency).miner.length := by
    rw [length_AddPeer]
    exact h
  refine ⟨?_, ?_, ?_, rfl, ?_, ?_⟩
  · rw [h1 w h]
    rfl
  · rw [h1 w h]
    rfl
  · intro k hk
    rw [get_AddPeer, if_neg (fun hc => hk hc.1.symm)]
  · rw [h1 _ h2, h1 w h]
    simp [Miner.AddPeer]
  · rw [h1 _ h2, h1 w h]
    simp [Miner.AddPeer]

/-- C8, witness: miner 0 of two adds miner 1 with latency 5. -/
theorem addPeer_one_directed_edge_witness :
    ((({ miner := [{}, {}], clock := { readings := fun _ => 0 } } : World).AddPeer 0 1 5).get 0).peers
      = [(1, 5)] ∧
    ((({ miner := [{}, {}], clock := { readings := fun _ => 0 } } : World).AddPeer 0 1 5).get 1).peers
      = [] := by
  have t := addPeer_one_directed_edge
    { miner := [{}, {}], clock := { readings := fun _ => 0 } } 0 1 5 (by decide)
  exact ⟨t.1, by rw [t.2.2.1 1 (by decide)]; rfl⟩

/-- C8, counterexample. A miner that adds itself as a peer is the peer node, and
it does not stay unchanged: its peer list gets the new entry. -/
theorem addPeer_self_counterexample :
    (({ miner := [{}], clock := { readings := fun _ => 0 } } : World).AddPeer 0 0 5).get 0 ≠
      ({ miner := [{}], clock := { readings := fun _ => 0 } } : World).get 0 := by
  decide

/-- C9. Edge symmetry: from miners with empty peer lists, after any sequence of
`Connect` calls on existing miners, for all `A`, `B` and `L` the peer list of `A`
has as many entries (B, L) as the peer list of `B` has entries (A, L); so if `A`
links to `B` with latency `L`, then `B` links to `A` with latency `L`. -/
theorem connect_edges_symmetric (w : World) (calls : List (Nat × Nat × Int))
    (hempty : ∀ m ∈ w.miner, m.peers = [])
    (hrange : ∀ c ∈ calls, c.1 < w.miner.length ∧ c.2.1 < w.miner.length)
    (A B : Nat) (L : Int) :
    ((connectAll calls w).get A).peers.count (B, L) =
      ((connectAll calls w).get B).peers.count (A, L) ∧
    ((B, L) ∈ ((connectAll calls w).get A).peers →
      (A, L) ∈ ((connectAll calls w).get B).peers) := by
  have hsym := connectAll_symmetric calls w hrange (by
    intro A B L
    rw [get_peers_of_empty w hempty A, get_peers_of_empty w hempty B]
    rfl)
  refine ⟨hsym A B L, ?_⟩
  intro hmem
  have hpos := List.count_pos_iff.mpr hmem
  rw [hsym A B L] at hpos
  exact List.count_pos_iff.mp hpos

/-- C9, witness: three miners, `Connect(0, 1, 5)`, `Connect(1, 2, 7)` and
`Connect(0, 1, 5)` again; miner 0 holds the entry (1, 5) twice and miner 1 holds
the entry (0, 5) twice. -/
theorem connect_edges_symmetric_witness :
    ((connectAll [(0, 1, 5), (1, 2, 7), (0, 1, 5)]
        { miner := [{}, {}, {}], clock := { readings := fun _ => 0 } }).get 0).peers.count (1, 5)
      = 2 ∧
    ((connectAll [(0, 1, 5), (1, 2, 7), (0, 1, 5)]
        { miner := [{}, {}, {}], clock := { readings := fun _ => 0 } }).get 1).peers.count (0, 5)
      = 2 := by
  have t := connect_edges_symmetric
    { miner := [{}, {}, {}], clock := { readings := fun _ => 0 } }
    [(0, 1, 5), (1, 2, 7), (0, 1, 5)] (by decide) (by decide) 0 1 5
  exact ⟨by decide, t.1 ▸ (by decide)⟩

theorem keyLe_time (a b : Entry) (h : a.keyLe b = true) : a.time ≤ b.time := by
  simp only [Entry.keyLe, Bool.or_eq_true, Bool.and_eq_true, decide_eq_true_eq] at h
  rcases h with h | h
  · exact Int.le_of_lt h
  · exact Int.le_of_eq h.1

theorem not_keyLe_time (a b : Entry) (h : ¬ a.keyLe b = true) : b.time ≤ a.time := by
  simp only [Entry.keyLe, Bool.or_eq_true, Bool.and_eq_true, decide_eq_true_eq, not_or] at h
  exact Int.not_lt.mp h.1

theorem minEntry_mem (e : Entry) (es : List Entry) : minEntry e es ∈ e :: es := by
  induction es generalizing e with
  | nil => simp [minEntry]
  | cons x xs ih =>
    unfold minEntry
    split
    · rcases List.mem_cons.mp (ih e) with h | h
      · rw [h]
        exact List.mem_cons_self _ _
      · exact List.mem_cons_of_mem _ (List.mem_cons_of_mem _ h)
    · exact List.mem_cons_of_mem _ (ih x)

theorem minEntry_time_le (e : Entry) (es : List Entry) :
    ∀ x ∈ e :: es, (minEntry e es).time ≤ x.time := by
  induction es generalizing e with
  | nil =>
    intro x hx
    rw [List.mem_singleton.mp hx]
    exact Int.le_refl _
  | cons y ys ih =>
    intro x hx
    unfold minEntry
    split
    · rename_i hk
      rcases List.mem_cons.mp hx with h | h
      · rw [h]
        exact ih e e (List.mem_cons_self _ _)
      · rcases List.mem_cons.mp h with h | h
        · rw [h]
          exact Int.le_trans (ih e e (List.mem_cons_self _ _)) (keyLe_time e y hk)
        · exact ih e x (List.mem_cons_of_mem _ h)
    · rename_i hk
      rcases List.mem_cons.mp hx with h | h
      · rw [h]
        exact Int.le_trans (ih y y (List.mem_cons_self _ _)) (not_keyLe_time e y hk)
      · exact ih y x h

theorem popMin_spec (s s1 : CScheduler) (e : Entry) (h : s.popMin = some (e, s1)) :
    e ∈ s.taskQueue ∧ (∀ x ∈ s.taskQueue, e.time ≤ x.time) ∧
      (∀ x ∈ s1.taskQueue, x ∈ s.taskQueue) ∧ s1.nextSeq = s.nextSeq := by
  unfold CScheduler.popMin at h
  split at h
  · exact absurd h (by simp)
  · rename_i e0 es hq
    simp only [Option.some.injEq, Prod.mk.injEq] at h
    rw [hq, ← h.1, ← h.2]
    exact ⟨minEntry_mem e0 es, minEntry_time_le e0 es, fun x hx => List.mem_of_mem_erase hx, rfl⟩

theorem relayEntries_time_ge (now : Time) (chain : List Int) (seq : Nat) (ps : List (Nat × Int))
    (hps : ∀ p ∈ ps, 0 ≤ p.2) : ∀ x ∈ relayEntries now chain seq ps, now ≤ x.time := by
  induction ps generalizing seq with
  | nil =>
    intro x hx
    simp [relayEntries] at hx
  | cons p ps ih =>
    intro x hx
    simp only [relayEntries, List.mem_cons] at hx
    rcases hx with h | h
    · rw [h]
      have h0 := hps p (List.mem_cons_self _ _)
      exact Int.le_add_of_nonneg_right h0
    · exact ih (seq + 1) (fun q hq => hps q (List.mem_cons_of_mem _ hq)) x h

theorem execTask_queue (w : World) (t : Task) (hlat : ∀ k, ∀ p ∈ (w.get k).peers, 0 ≤ p.2) :
    ∀ x ∈ (w.execTask t).simulator.taskQueue,
      x ∈ w.simulator.taskQueue ∨
        ((w.execTask t).clock.calls ≠ w.clock.calls ∧
          w.clock.readings w.clock.calls ≤ x.time) := by
  intro x hx
  cases t with
  | FindBlock m b =>
    simp only [World.execTask, World.FindBlock, Miner.FindBlock, relayChain_eq,
      List.mem_append] at hx ⊢
    rcases hx with h | h
    · exact Or.inl h
    · exact Or.inr ⟨by omega, relayEntries_time_ge _ _ _ _ (hlat m) x h⟩
  | ConsiderChain m c =>
    simp only [World.execTask, World.ConsiderChain, Miner.ConsiderChain] at hx ⊢
    split at hx
    · rename_i hlen
      rw [if_pos hlen]
      simp only [relayChain_eq, List.mem_append] at hx ⊢
      rcases hx with h | h
      · exact Or.inl h
      · exact Or.inr ⟨by omega, relayEntries_time_ge _ _ _ _ (hlat m) x h⟩
    · exact Or.inl hx

theorem step_spec (w w1 : World) (e : Entry) (h : w.step = some (e, w1))
    (hlat : ∀ k, ∀ p ∈ (w.get k).peers, 0 ≤ p.2) :
    e ∈ w.simulator.taskQueue ∧
    (∀ k, ∀ p ∈ (w1.get k).peers, 0 ≤ p.2) ∧
    (∀ x ∈ w1.simulator.taskQueue,
      e.time ≤ x.time ∨
        (w1.clock.calls ≠ w.clock.calls ∧ w.clock.readings w.clock.calls ≤ x.time)) := by
  unfold World.step at h
  split at h
  · exact absurd h (by simp)
  · rename_i e0 s0 hpop
    simp only [Option.some.injEq, Prod.mk.injEq] at h
    have hp := popMin_spec _ _ _ hpop
    rw [← h.1, ← h.2]
    refine ⟨hp.1, ?_, ?_⟩
    · intro k p hp2
      rw [get_execTask_peers] at hp2
      exact hlat k p hp2
    · intro x hx
      rcases execTask_queue { w with simulator := s0 } e0.task hlat x hx with hx1 | hx1
      · exact Or.inl (hp.2.1 x (hp.2.2.1 x hx1))
      · exact Or.inr hx1

theorem serviceQueue_chain (fuel : Nat) (w : World) (T : Time)
    (hlb : ∀ x ∈ w.simulator.taskQueue, T ≤ x.time)
    (hlat : ∀ k, ∀ p ∈ (w.get k).peers, 0 ≤ p.2)
    (hclk : clockNotBehind fuel w = true) :
    List.Chain (fun a b => a ≤ b) T ((w.serviceQueue fuel).1.map (fun e => e.time)) := by
  induction fuel generalizing w T with
  | zero => exact List.Chain.nil
  | succ n ih =>
    unfold World.serviceQueue
    unfold clockNotBehind at hclk
    split
    · exact List.Chain.nil
    · rename_i e w1 hstep
      rw [hstep] at hclk
      simp only [Bool.and_eq_true, Bool.or_eq_true, decide_eq_true_eq] at hclk
      have hs := step_spec w w1 e hstep hlat
      simp only [List.map_cons]
      refine List.Chain.cons (hlb e hs.1) (ih w1 e.time ?_ hs.2.1 hclk.2)
      intro x hx
      rcases hs.2.2 x hx with h | h
      · exact h
      · rcases hclk.1 with hc | hc
        · exact absurd hc h.1
        · exact Int.le_trans hc h.2

theorem serviceQueue_chain' (fuel : Nat) (w : World)
    (hlat : ∀ k, ∀ p ∈ (w.get k).peers, 0 ≤ p.2)
    (hclk : clockNotBehind fuel w = true) :
    List.Chain' (fun a b => a ≤ b) ((w.serviceQueue fuel).1.map (fun e => e.time)) := by
  cases fuel with
  | zero => exact List.chain'_nil
  | succ n =>
    unfold World.serviceQueue
    unfold clockNotBehind at hclk
    split
    · exact List.chain'_nil
    · rename_i e w1 hstep
      rw [hstep] at hclk
      simp only [Bool.and_eq_true, Bool.or_eq_true, decide_eq_true_eq] at hclk
      have hs := step_spec w w1 e hstep hlat
      simp only [List.map_cons, List.Chain']
      refine serviceQueue_chain n w1 e.time ?_ hs.2.1 hclk.2
      intro x hx
      rcases hs.2.2 x hx with h | h
      · exact h
      · rcases hclk.1 with hc | hc
        · exact absurd hc h.1
        · exact Int.le_trans hc h.2

theorem foldl_preserves {α : Type} (P : World → Prop) (f : World → α → World)
    (hf : ∀ w a, P w → P (f w a)) (l : List α) (w : World) (hw : P w) : P (l.foldl f w) := by
  induction l generalizing w with
  | nil => exact hw
  | cons a l ih => exact ih (f w a) (hf w a hw)

theorem latency_AddPeer (w : World) (m peer : Nat) (latency : Int) (hl : 0 ≤ latency)
    (hlat : ∀ k, ∀ p ∈ (w.get k).peers, 0 ≤ p.2) :
    ∀ k, ∀ p ∈ ((w.AddPeer m peer latency).get k).peers, 0 ≤ p.2 := by
  intro k p hp
  rw [get_AddPeer] at hp
  split at hp
  · simp only [Miner.AddPeer, List.mem_append, List.mem_singleton] at hp
    rcases hp with h | h
    · exact hlat m p h
    · rw [h]
      exact hl
  · exact hlat k p hp

theorem latency_Connect (w : World) (m1 m2 : Nat) (latency : Int) (hl : 0 ≤ latency)
    (hlat : ∀ k, ∀ p ∈ (w.get k).peers, 0 ≤ p.2) :
    ∀ k, ∀ p ∈ ((w.Connect m1 m2 latency).get k).peers, 0 ≤ p.2 :=
  latency_AddPeer _ m2 m1 latency hl (latency_AddPeer w m1 m2 latency hl hlat)

theorem latency_buildTopology (w : World) (hlat : ∀ k, ∀ p ∈ (w.get k).peers, 0 ≤ p.2) :
    ∀ k, ∀ p ∈ ((buildTopology w).get k).peers, 0 ≤ p.2 := by
  unfold buildTopology
  apply foldl_preserves (fun v => ∀ k, ∀ p ∈ (v.get k).peers, 0 ≤ p.2)
  · intro v i hv
    apply foldl_preserves (fun u => ∀ k, ∀ p ∈ (u.get k).peers, 0 ≤ p.2)
    · intro u j hu
      exact latency_Connect u i j 1 (by decide) hu
    · exact hv
  · exact latency_Connect _ 0 3 1 (by decide)
      (latency_Connect _ 0 2 1 (by decide) (latency_Connect w 0 1 1 (by decide) hlat))

theorem mainSetup_latency (n_blocks : Int) (draws : Nat → Draw) (readings : Nat → Time) :
    ∀ k, ∀ p ∈ ((mainSetup n_blocks draws readings).get k).peers, 0 ≤ p.2 := by
  intro k p hp
  simp only [World.get, mainSetup] at hp
  refine latency_buildTopology
    { miner := List.replicate 7 {}, clock := { readings := readings } } ?_ k p hp
  intro j q hq
  rw [get_peers_of_empty _ (fun m hm => by rw [List.eq_of_mem_replicate hm]) j] at hq
  exact absurd hq (List.not_mem_nil q)

/-- C10 (as the code has it). Time order: in every run of `main` (any number of
blocks, any draws, any clock readings, any number of executed tasks) in which
every task that relays reads from the clock a value not earlier than its own
time, the times of the executed tasks, in execution order, are such that each is
less than or equal to the next. -/
theorem main_time_order (n_blocks : Int) (draws : Nat → Draw) (readings : Nat → Time)
    (fuel : Nat)
    (hclk : clockNotBehind fuel (mainSetup n_blocks draws readings) = true) :
    List.Chain' (fun a b => a ≤ b)
      (((mainSetup n_blocks draws readings).serviceQueue fuel).1.map (fun e => e.time)) :=
  serviceQueue_chain' fuel _ (mainSetup_latency n_blocks draws readings) hclk

/-- C10, witness: two blocks, found by miner 0 and by miner 4 one mean interval
apart, with a clock that returns 0, 2000, 4000, ...: every relay reads a value
later than the time of its task, and the times of the first forty executed tasks
are in order. -/
theorem main_time_order_witness :
    clockNotBehind 40
        (mainSetup 2 (fun i => { which_miner := 4 * i, block_time := 1 })
          (fun n => 2000 * (n : Int))) = true ∧
    List.Chain' (fun a b => a ≤ b)
      (((mainSetup 2 (fun i => { which_miner := 4 * i, block_time := 1 })
          (fun n => 2000 * (n : Int))).serviceQueue 40).1.map (fun e => e.time)) :=
  ⟨by decide!,
   main_time_order 2 (fun i => { which_miner := 4 * i, block_time := 1 })
     (fun n => 2000 * (n : Int)) 40 (by decide!)⟩

/-- C10, counterexample. In the run of `main` with one block, found by miner 0
after one mean interval, and a clock that returns 0, 1, 2, ..., the first two
executed tasks are the root `FindBlock` task, with time 600, and then a
`ConsiderChain` task that it scheduled, with time 2: the earlier-executed task
has the later time. -/
theorem main_time_order_counterexample :
    ((mainSetup 1 (fun _ => { which_miner := 0, block_time := 1 })
        (fun n => (n : Int))).serviceQueue 2).1 =
      [{ time := 600, seq := 0, task := Task.FindBlock 0 0 },
       { time := 2, seq := 1, task := Task.ConsiderChain 1 [0] }] ∧
    ¬ List.Chain' (fun a b => a ≤ b)
      (((mainSetup 1 (fun _ => { which_miner := 0, block_time := 1 })
          (fun n => (n : Int))).serviceQueue 2).1.map (fun e => e.time)) := by
  have h : ((mainSetup 1 (fun _ => { which_miner := 0, block_time := 1 })
      (fun n => (n : Int))).serviceQueue 2).1 =
      [{ time := 600, seq := 0, task := Task.FindBlock 0 0 },
       { time := 2, seq := 1, task := Task.ConsiderChain 1 [0] }] := by
    decide!
  refine ⟨h, ?_⟩
  rw [h]
  simp

theorem miner_AddPeer_congr (w v : World) (h : w.miner = v.miner) (m peer : Nat) (latency : Int) :
    (w.AddPeer m peer latency).miner = (v.AddPeer m peer latency).miner := by
  simp only [World.AddPeer, World.get, h]

theorem miner_Connect_congr (w v : World) (h : w.miner = v.miner) (m1 m2 : Nat) (latency : Int) :
    (w.Connect m1 m2 latency).miner = (v.Connect m1 m2 latency).miner :=
  miner_AddPeer_congr _ _ (miner_AddPeer_congr w v h m1 m2 latency) m2 m1 latency

theorem miner_foldl_congr {α : Type} (f : World → α → World)
    (hf : ∀ w v a, w.miner = v.miner → (f w a).miner = (f v a).miner) (l : List α)
    (w v : World) (h : w.miner = v.miner) : (l.foldl f w).miner = (l.foldl f v).miner := by
  induction l generalizing w v with
  | nil => exact h
  | cons a l ih => exact ih (f w a) (f v a) (hf w v a h)

theorem miner_buildTopology_congr (w v : World) (h : w.miner = v.miner) :
    (buildTopology w).miner = (buildTopology v).miner := by
  unfold buildTopology
  apply miner_foldl_congr
  · intro w1 v1 i h1
    apply miner_foldl_congr
    · intro w2 v2 j h2
      exact miner_Connect_congr w2 v2 h2 i j 1
    · exact h1
  · exact miner_Connect_congr _ _
      (miner_Connect_congr _ _ (miner_Connect_congr w v h 0 1 1) 0 2 1) 0 3 1

/-- The seven miners after the construction in `main`. -/
theorem mainSetup_miner (n_blocks : Int) (draws : Nat → Draw) (readings : Nat → Time) :
    (mainSetup n_blocks draws readings).miner =
      [{ peers := [(1, 1), (2, 1), (3, 1)] },
       { peers := [(0, 1), (2, 1), (3, 1), (4, 1), (5, 1), (6, 1)] },
       { peers := [(0, 1), (1, 1), (3, 1), (4, 1), (5, 1), (6, 1)] },
       { peers := [(0, 1), (1, 1), (2, 1), (4, 1), (5, 1), (6, 1)] },
       { peers := [(1, 1), (2, 1), (3, 1), (5, 1), (6, 1)] },
       { peers := [(1, 1), (2, 1), (3, 1), (4, 1), (6, 1)] },
       { peers := [(1, 1), (2, 1), (3, 1), (4, 1), (5, 1)] }] := by
  simp only [mainSetup]
  refine (miner_buildTopology_congr _
    { miner := List.replicate 7 {}, clock := { readings := fun _ => 0 } } rfl).trans ?_
  decide

theorem get_mainSetup (n_blocks : Int) (draws : Nat → Draw) (readings : Nat → Time) (a : Nat) :
    (mainSetup n_blocks draws readings).get a =
      ((List.range 7).map (fun b => ({ peers := specPeers b } : Miner))).getD a default := by
  unfold World.get
  rw [mainSetup_miner]
  rfl

theorem map_peers_set (l : List Miner) (m : Nat) (x : Miner)
    (hx : x.peers = (l.getD m default).peers) :
    (l.set m x).map (fun a => a.peers) = l.map (fun a => a.peers) := by
  induction l generalizing m with
  | nil => rfl
  | cons a l ih =>
    cases m with
    | zero =>
      simp only [List.set_cons_zero, List.map_cons, List.cons.injEq, and_true]
      exact hx
    | succ n =>
      simp only [List.set_cons_succ, List.map_cons, List.cons.injEq, true_and]
      exact ih n hx

theorem map_peers_execTask (w : World) (t : Task) :
    (w.execTask t).miner.map (fun a => a.peers) = w.miner.map (fun a => a.peers) := by
  cases t with
  | FindBlock m b => exact map_peers_set w.miner m _ rfl
  | ConsiderChain m c =>
    refine map_peers_set w.miner m _ ?_
    unfold Miner.ConsiderChain
    split <;> rfl

theorem step_eq_runEntry (w w1 : World) (e : Entry) (h : w.step = some (e, w1)) :
    e ∈ w.simulator.taskQueue ∧ w1 = w.runEntry e := by
  unfold World.step at h
  split at h
  · exact absurd h (by simp)
  · rename_i e0 s0 hpop
    simp only [Option.some.injEq, Prod.mk.injEq] at h
    have hmem := (popMin_spec _ _ _ hpop).1
    unfold CScheduler.popMin at hpop
    split at hpop
    · exact absurd hpop (by simp)
    · rename_i e1 es hq
      simp only [Option.some.injEq, Prod.mk.injEq] at hpop
      rw [← h.1, ← h.2]
      refine ⟨hmem, ?_⟩
      unfold World.runEntry
      rw [← hpop.2, ← hpop.1, hq]

theorem map_peers_step (w w1 : World) (e : Entry) (h : w.step = some (e, w1)) :
    w1.miner.map (fun a => a.peers) = w.miner.map (fun a => a.peers) := by
  rw [(step_eq_runEntry w w1 e h).2]
  exact map_peers_execTask _ e.task

theorem map_peers_serviceQueue (fuel : Nat) (w : World) :
    (w.serviceQueue fuel).2.miner.map (fun a => a.peers) = w.miner.map (fun a => a.peers) := by
  induction fuel generalizing w with
  | zero => rfl
  | succ n ih =>
    unfold World.serviceQueue
    split
    · rfl
    · rename_i e w1 h
      exact (ih w1).trans (map_peers_step w w1 e h)

theorem map_peers_runChoices (choices : List Nat) (w : World) :
    (w.runChoices choices).miner.map (fun a => a.peers) = w.miner.map (fun a => a.peers) := by
  induction choices generalizing w with
  | nil => rfl
  | cons i rest ih =>
    unfold World.runChoices
    split
    · exact ih w
    · rename_i e _
      exact (ih (w.runEntry e)).trans (map_peers_execTask _ e.task)

/-- C15. Built topology: after the construction in `main`, whatever the number of
blocks, the draws and the clock, the peer lists of miners 0 to 6 are those of the
described topology (miner 0: 1, 2, 3; miners 1, 2, 3: miner 0 and the other five
of 1 to 6; miners 4, 5, 6: the other five of 1 to 6), every latency is 1, no
miner lists itself, no list has a repeated entry, the degrees are 3, 6, 6, 6, 5,
5, 5, distinct miners among 1 to 6 are linked in both directions, and every miner
is reachable from every miner along links. -/
theorem main_topology (n_blocks : Int) (draws : Nat → Draw) (readings : Nat → Time) :
    (mainSetup n_blocks draws readings).miner.map (fun m => m.peers) =
      (List.range 7).map specPeers ∧
    (mainSetup n_blocks draws readings).miner.map (fun m => m.peers) =
      [[(1, 1), (2, 1), (3, 1)],
       [(0, 1), (2, 1), (3, 1), (4, 1), (5, 1), (6, 1)],
       [(0, 1), (1, 1), (3, 1), (4, 1), (5, 1), (6, 1)],
       [(0, 1), (1, 1), (2, 1), (4, 1), (5, 1), (6, 1)],
       [(1, 1), (2, 1), (3, 1), (5, 1), (6, 1)],
       [(1, 1), (2, 1), (3, 1), (4, 1), (6, 1)],
       [(1, 1), (2, 1), (3, 1), (4, 1), (5, 1)]] ∧
    (mainSetup n_blocks draws readings).miner.map (fun m => m.peers.length) =
      [3, 6, 6, 6, 5, 5, 5] ∧
    (∀ m ∈ (mainSetup n_blocks draws readings).miner,
      m.peers.Nodup ∧ (m.peers.map Prod.fst).Nodup ∧ ∀ p ∈ m.peers, p.2 = 1) ∧
    (∀ a, ¬ (mainSetup n_blocks draws readings).linked a a) ∧
    (∀ a b, 1 ≤ a → a ≤ 6 → 1 ≤ b → b ≤ 6 → a ≠ b →
      (b, 1) ∈ ((mainSetup n_blocks draws readings).get a).peers) ∧
    (∀ a b, a < 7 → b < 7 →
      Relation.ReflTransGen (mainSetup n_blocks draws readings).linked a b) := by
  have hlink1 : ∀ a, a < 7 → a ≠ 1 →
      (mainSetup n_blocks draws readings).linked a 1 ∧
        (mainSetup n_blocks draws readings).linked 1 a := by
    intro a ha hne
    unfold World.linked
    rw [get_mainSetup, get_mainSetup]
    interval_cases a <;> first | exact absurd rfl hne | decide
  refine ⟨?_, ?_, ?_, ?_, ?_, ?_, ?_⟩
  · rw [mainSetup_miner]
    decide
  · rw [mainSetup_miner]
    decide
  · rw [mainSetup_miner]
    decide
  · rw [mainSetup_miner]
    decide
  · intro a
    unfold World.linked
    rw [get_mainSetup]
    by_cases ha : a < 7
    · interval_cases a <;> decide
    · rw [List.getD_eq_default _ _ (by simpa using Nat.le_of_not_lt ha)]
      exact List.not_mem_nil a
  · intro a b ha1 ha6 hb1 hb6 hab
    rw [get_mainSetup]
    interval_cases a <;> interval_cases b <;> first | exact absurd rfl hab | decide
  · intro a b ha hb
    by_cases ha1 : a = 1
    · by_cases hb1 : b = 1
      · rw [ha1, hb1]
      · rw [ha1]
        exact Relation.ReflTransGen.single (hlink1 b hb hb1).2
    · by_cases hb1 : b = 1
      · rw [hb1]
        exact Relation.ReflTransGen.single (hlink1 a ha ha1).1
      · exact Relation.ReflTransGen.trans
          (Relation.ReflTransGen.single (hlink1 a ha ha1).1)
          (Relation.ReflTransGen.single (hlink1 b hb hb1).2)

/-- C17. Edges are immutable during the simulation: `FindBlock`, `ConsiderChain`
and `RelayChain`, executed on any miner `m`, every drain and every execution of
pending tasks in any order leave the peer lists of all miners as they were (same
number of miners, same entries in the same order); `RelayChain` changes no miner
at all, and `FindBlock` and `ConsiderChain` leave every miner other than `m`
unchanged, its best chain included. -/
theorem peers_immutable (w : World) (m k : Nat) (blockNumber : Int) (chain : List Int)
    (fuel : Nat) (choices : List Nat) :
    (w.FindBlock m blockNumber).miner.map (fun a => a.peers) =
      w.miner.map (fun a => a.peers) ∧
    (w.ConsiderChain m chain).miner.map (fun a => a.peers) =
      w.miner.map (fun a => a.peers) ∧
    (w.RelayChain m chain).miner = w.miner ∧
    (w.serviceQueue fuel).2.miner.map (fun a => a.peers) = w.miner.map (fun a => a.peers) ∧
    (w.runChoices choices).miner.map (fun a => a.peers) = w.miner.map (fun a => a.peers) ∧
    ((w.FindBlock m blockNumber).get k).peers = (w.get k).peers ∧
    ((w.ConsiderChain m chain).get k).peers = (w.get k).peers ∧
    (k ≠ m → (w.FindBlock m blockNumber).get k = w.get k) ∧
    (k ≠ m → (w.ConsiderChain m chain).get k = w.get k) := by
  refine ⟨map_peers_execTask w (Task.FindBlock m blockNumber),
    map_peers_execTask w (Task.ConsiderChain m chain), rfl, map_peers_serviceQueue fuel w,
    map_peers_runChoices choices w, get_execTask_peers w (Task.FindBlock m blockNumber) k,
    get_execTask_peers w (Task.ConsiderChain m chain) k, ?_, ?_⟩
  · intro hk
    rw [get_FindBlock, if_neg (fun h => hk h.1.symm)]
  · intro hk
    rw [get_ConsiderChain, if_neg (fun h => hk h.1.symm)]

theorem scheduleRoots_times (draws : Nat → Draw) (count i : Nat) (t : Time) (s : CScheduler) :
    (scheduleRoots draws count i t s).taskQueue.map (fun e => e.time) =
      s.taskQueue.map (fun e => e.time) ++ rootTimes draws count i t := by
  induction count generalizing i t s with
  | zero => simp [scheduleRoots, rootTimes]
  | succ n ih =>
    unfold scheduleRoots
    simp only [ih, CScheduler.schedule, rootTimes, List.map_append, List.map_cons, List.map_nil,
      List.append_assoc, List.singleton_append]

theorem scheduleRoots_tasks (draws : Nat → Draw) (count i : Nat) (t : Time) (s : CScheduler) :
    (scheduleRoots draws count i t s).taskQueue.map (fun e => e.task) =
      s.taskQueue.map (fun e => e.task) ++
        (List.range' i count).map (fun j => Task.FindBlock (draws j).which_miner (j : Int)) := by
  induction count generalizing i t s with
  | zero => simp [scheduleRoots]
  | succ n ih =>
    unfold scheduleRoots
    simp only [ih, CScheduler.schedule, List.range', List.map_append, List.map_cons, List.map_nil,
      List.append_assoc, List.singleton_append]

theorem rootTimes_length (draws : Nat → Draw) (count i : Nat) (t : Time) :
    (rootTimes draws count i t).length = count := by
  induction count generalizing i t with
  | zero => rfl
  | succ n ih => simp [rootTimes, ih]

theorem rootTimes_head (draws : Nat → Draw) (count i : Nat) (t : Time) (h : 0 < count) :
    (rootTimes draws count i t).getD 0 0 = t + truncToInt (toDouble ((draws i).block_time * 600)) := by
  cases count with
  | zero => exact absurd h (Nat.lt_irrefl 0)
  | succ n => rfl

theorem rootTimes_next (draws : Nat → Draw) (count i : Nat) (t : Time) (k : Nat)
    (h : k + 1 < count) :
    (rootTimes draws count i t).getD (k + 1) 0 =
      (rootTimes draws count i t).getD k 0 +
        truncToInt (toDouble ((draws (i + (k + 1))).block_time * 600)) := by
  induction count generalizing i t k with
  | zero => exact absurd h (Nat.not_lt_zero _)
  | succ n ih =>
    unfold rootTimes
    cases k with
    | zero =>
      simp only [List.getD_cons_succ, List.getD_cons_zero]
      rw [rootTimes_head draws n (i + 1) _ (by omega)]
    | succ k =>
      simp only [List.getD_cons_succ]
      rw [ih (i + 1) _ k (by omega)]
      have e : i + 1 + (k + 1) = i + (k + 1 + 1) := by omega
      rw [e]

theorem simulator_clock_AddPeer (w : World) (m peer : Nat) (latency : Int) :
    (w.AddPeer m peer latency).simulator = w.simulator ∧
      (w.AddPeer m peer latency).clock = w.clock := ⟨rfl, rfl⟩

theorem simulator_clock_buildTopology (w : World) :
    (buildTopology w).simulator = w.simulator ∧ (buildTopology w).clock = w.clock := by
  unfold buildTopology
  apply foldl_preserves (fun v => v.simulator = w.simulator ∧ v.clock = w.clock)
  · intro v i hv
    apply foldl_preserves (fun u => u.simulator = w.simulator ∧ u.clock = w.clock)
    · intro u j hu
      exact hu
    · exact hv
  · exact ⟨rfl, rfl⟩

theorem mainSetup_simulator (n_blocks : Int) (draws : Nat → Draw) (readings : Nat → Time) :
    (mainSetup n_blocks draws readings).simulator =
      scheduleRoots draws n_blocks.toNat 0 (readings 0) {} := by
  simp only [mainSetup, SystemClock.now]
  rw [(simulator_clock_buildTopology _).1, (simulator_clock_buildTopology _).2]

theorem mainSetup_clock (n_blocks : Int) (draws : Nat → Draw) (readings : Nat → Time) :
    (mainSetup n_blocks draws readings).clock = { readings := readings, calls := 1 } := by
  simp only [mainSetup, SystemClock.now]
  rw [(simulator_clock_buildTopology _).2]

theorem get_of_le (w : World) (m : Nat) (h : w.miner.length ≤ m) : w.get m = default := by
  unfold World.get
  exact List.getD_eq_default _ _ h

theorem get_mem (w : World) (m : Nat) (h : m < w.miner.length) : w.get m ∈ w.miner := by
  unfold World.get
  rw [List.getD_eq_getElem _ _ h]
  exact List.getElem_mem h

theorem set_of_le (l : List Miner) (m : Nat) (x : Miner) (h : l.length ≤ m) : l.set m x = l := by
  induction l generalizing m with
  | nil => rfl
  | cons a l ih =>
    cases m with
    | zero => exact absurd h (by simp)
    | succ n =>
      simp only [List.set_cons_succ, List.cons.injEq, true_and]
      exact ih n (by simpa using h)

theorem set_getD_self (l : List Miner) (m : Nat) : l.set m (l.getD m default) = l := by
  induction l generalizing m with
  | nil => rfl
  | cons a l ih =>
    cases m with
    | zero => rfl
    | succ n =>
      simp only [List.set_cons_succ, List.getD_cons_succ, List.cons.injEq, true_and]
      exact ih n

theorem sum_map_set (f : Miner → Nat) (l : List Miner) (m : Nat) (x : Miner)
    (h : m < l.length) :
    ((l.set m x).map f).sum + f (l.getD m default) = (l.map f).sum + f x := by
  induction l generalizing m with
  | nil => exact absurd h (Nat.not_lt_zero _)
  | cons a l ih =>
    cases m with
    | zero =>
      simp only [List.set_cons_zero, List.map_cons, List.sum_cons, List.getD_cons_zero]
      omega
    | succ n =>
      have h2 := ih n (by simpa using h)
      simp only [List.set_cons_succ, List.map_cons, List.sum_cons, List.getD_cons_succ]
      omega

theorem le_sum_map (f : Miner → Nat) (l : List Miner) (m : Nat) :
    f (l.getD m default) ≤ (l.map f).sum + f default := by
  induction l generalizing m with
  | nil => simp
  | cons a l ih =>
    cases m with
    | zero =>
      simp only [List.getD_cons_zero, List.map_cons, List.sum_cons]
      omega
    | succ n =>
      have h2 := ih n
      simp only [List.getD_cons_succ, List.map_cons, List.sum_cons]
      omega

/-- The two ways in which the call of a closure acts: either no miner and no
pending task changes, or the miner that the closure addresses exists, gets a
strictly longer best chain, and that chain is relayed to its peers. -/
theorem execTask_cases (w : World) (t : Task) :
    ((w.execTask t).miner = w.miner ∧
      (w.execTask t).simulator.taskQueue = w.simulator.taskQueue ∧
      (∀ m b, t = Task.FindBlock m b → w.miner.length ≤ m) ∧
      (∀ m c, t = Task.ConsiderChain m c →
        c.length ≤ (w.get m).best_chain.length ∨ w.miner.length ≤ m)) ∨
    (∃ m ch, m < w.miner.length ∧ (w.get m).best_chain.length < ch.length ∧
      ((∃ b, t = Task.FindBlock m b ∧ ch = (w.get m).best_chain ++ [b]) ∨
        t = Task.ConsiderChain m ch) ∧
      (w.execTask t).miner = w.miner.set m { w.get m with best_chain := ch } ∧
      (w.execTask t).simulator.taskQueue =
        w.simulator.taskQueue ++
          relayEntries (w.clock.readings w.clock.calls) ch w.simulator.nextSeq
            (w.get m).peers) := by
  cases t with
  | FindBlock m b =>
    by_cases hm : m < w.miner.length
    · right
      refine ⟨m, (w.get m).best_chain ++ [b], hm, by simp, Or.inl ⟨b, rfl, rfl⟩, rfl, ?_⟩
      simp [World.execTask, World.FindBlock, Miner.FindBlock, relayChain_eq]
    · left
      have hle := Nat.le_of_not_lt hm
      refine ⟨?_, ?_, ?_, ?_⟩
      · exact set_of_le _ _ _ hle
      · simp only [World.execTask, World.FindBlock, Miner.FindBlock, relayChain_eq]
        rw [get_of_le w m hle]
        simp [relayEntries]
      · intro m2 b2 h
        cases h
        exact hle
      · intro m2 c2 h
        cases h
  | ConsiderChain m c =>
    by_cases hlen : (w.get m).best_chain.length < c.length
    · by_cases hm : m < w.miner.length
      · right
        refine ⟨m, c, hm, hlen, Or.inr rfl, ?_, ?_⟩
        · simp only [World.execTask, World.ConsiderChain, Miner.ConsiderChain]
          rw [if_pos hlen]
        · simp only [World.execTask, World.ConsiderChain, Miner.ConsiderChain]
          rw [if_pos hlen]
          simp [relayChain_eq]
      · left
        have hle := Nat.le_of_not_lt hm
        refine ⟨?_, ?_, ?_, ?_⟩
        · exact set_of_le _ _ _ hle
        · simp only [World.execTask, World.ConsiderChain, Miner.ConsiderChain]
          rw [if_pos hlen]
          simp only [relayChain_eq]
          rw [get_of_le w m hle]
          simp [relayEntries]
        · intro m2 b2 h
          cases h
        · intro m2 c2 h
          cases h
          exact Or.inr hle
    · left
      refine ⟨?_, ?_, ?_, ?_⟩
      · simp only [World.execTask, World.ConsiderChain, Miner.ConsiderChain]
        rw [if_neg hlen]
        exact set_getD_self _ _
      · simp only [World.execTask, World.ConsiderChain, Miner.ConsiderChain]
        rw [if_neg hlen]
      · intro m2 b2 h
        cases h
      · intro m2 c2 h
        cases h
        exact Or.inl (Nat.le_of_not_lt hlen)

theorem relayEntries_countP (now : Time) (chain : List Int) (seq : Nat) (ps : List (Nat × Int)) :
    (relayEntries now chain seq ps).countP (fun e => e.task.isFindBlock) = 0 := by
  induction ps generalizing seq with
  | nil => rfl
  | cons p ps ih =>
    rw [relayEntries, List.countP_cons, ih]
    rfl

theorem relayEntries_chain (now : Time) (chain : List Int) (seq : Nat) (ps : List (Nat × Int)) :
    ∀ x ∈ relayEntries now chain seq ps, ∃ p ∈ ps, x.task = Task.ConsiderChain p.1 chain := by
  induction ps generalizing seq with
  | nil =>
    intro x hx
    exact absurd hx (List.not_mem_nil x)
  | cons p ps ih =>
    intro x hx
    simp only [relayEntries, List.mem_cons] at hx
    rcases hx with h | h
    · exact ⟨p, List.mem_cons_self _ _, by rw [h]⟩
    · obtain ⟨q, hq, hx2⟩ := ih (seq + 1) x h
      exact ⟨q, List.mem_cons_of_mem _ hq, hx2⟩

theorem pendingFindBlocks_erase (w : World) (e : Entry) (he : e ∈ w.simulator.taskQueue) :
    w.pendingFindBlocks =
      (if e.task.isFindBlock = true then 1 else 0) +
        (w.simulator.taskQueue.erase e).countP (fun x => x.task.isFindBlock) := by
  unfold World.pendingFindBlocks
  rw [(List.perm_cons_erase he).countP_eq, List.countP_cons]
  omega

theorem length_erase_add_one (w : World) (e : Entry) (he : e ∈ w.simulator.taskQueue) :
    w.simulator.taskQueue.length = (w.simulator.taskQueue.erase e).length + 1 := by
  rw [(List.perm_cons_erase he).length_eq]
  rfl

/-- The two ways in which the execution of a pending entry acts. -/
theorem runEntry_cases (w : World) (e : Entry) :
    ((w.runEntry e).miner = w.miner ∧
      (w.runEntry e).simulator.taskQueue = w.simulator.taskQueue.erase e ∧
      (∀ m b, e.task = Task.FindBlock m b → w.miner.length ≤ m) ∧
      (∀ m c, e.task = Task.ConsiderChain m c →
        c.length ≤ (w.get m).best_chain.length ∨ w.miner.length ≤ m)) ∨
    (∃ m ch, m < w.miner.length ∧ (w.get m).best_chain.length < ch.length ∧
      ((∃ b, e.task = Task.FindBlock m b ∧ ch = (w.get m).best_chain ++ [b]) ∨
        e.task = Task.ConsiderChain m ch) ∧
      (w.runEntry e).miner = w.miner.set m { w.get m with best_chain := ch } ∧
      (w.runEntry e).simulator.taskQueue =
        w.simulator.taskQueue.erase e ++
          relayEntries (w.clock.readings w.clock.calls) ch w.simulator.nextSeq
            (w.get m).peers) :=
  execTask_cases
    { w with simulator := { w.simulator with taskQueue := w.simulator.taskQueue.erase e } }
    e.task

/-- One executed task: the bound `B` on the chain lengths keeps holding and the
work that is left gets less. -/
theorem runEntry_workLeft (B : Nat) (w : World) (e : Entry) (he : e ∈ w.simulator.taskQueue)
    (hm : ∀ x ∈ w.miner, x.best_chain.length + w.pendingFindBlocks ≤ B)
    (hq : ∀ x ∈ w.simulator.taskQueue, x.task.chainLen + w.pendingFindBlocks ≤ B) :
    (∀ x ∈ (w.runEntry e).miner, x.best_chain.length + (w.runEntry e).pendingFindBlocks ≤ B) ∧
    (∀ x ∈ (w.runEntry e).simulator.taskQueue,
      x.task.chainLen + (w.runEntry e).pendingFindBlocks ≤ B) ∧
    (w.runEntry e).workLeft B < w.workLeft B := by
  have hF := pendingFindBlocks_erase w e he
  have hL := length_erase_add_one w e he
  have hsub : ∀ x ∈ w.simulator.taskQueue.erase e, x ∈ w.simulator.taskQueue :=
    fun x hx => List.mem_of_mem_erase hx
  rcases runEntry_cases w e with ⟨hm1, hq1, _, _⟩ | ⟨m, ch, hmlt, hlt, hkind, hm1, hq1⟩
  · have hF1 : (w.runEntry e).pendingFindBlocks =
        (w.simulator.taskQueue.erase e).countP (fun x => x.task.isFindBlock) := by
      unfold World.pendingFindBlocks
      rw [hq1]
    refine ⟨?_, ?_, ?_⟩
    · intro x hx
      rw [hm1] at hx
      have := hm x hx
      omega
    · intro x hx
      rw [hq1] at hx
      have := hq x (hsub x hx)
      omega
    · unfold World.workLeft
      rw [hm1, hq1, hL]
      omega
  · have hget : w.get m ∈ w.miner := get_mem w m hmlt
    have hF1 : (w.runEntry e).pendingFindBlocks =
        (w.simulator.taskQueue.erase e).countP (fun x => x.task.isFindBlock) := by
      unfold World.pendingFindBlocks
      rw [hq1, List.countP_append, relayEntries_countP]
      rfl
    have hch : ch.length + (w.runEntry e).pendingFindBlocks ≤ B := by
      rcases hkind with ⟨b, hb, hcb⟩ | hc
      · have h3 := hm _ hget
        have h4 : ch.length = (w.get m).best_chain.length + 1 := by
          rw [hcb]
          simp
        have hfb : e.task.isFindBlock = true := by
          rw [hb]
          rfl
        rw [if_pos hfb] at hF
        omega
      · have h3 := hq e he
        rw [hc] at h3
        simp only [Task.chainLen] at h3
        omega
    have hdeg : ((w.miner.set m { w.get m with best_chain := ch }).map
        (fun a => a.peers.length)).sum = (w.miner.map (fun a => a.peers.length)).sum := by
      have := sum_map_set (fun a => a.peers.length) w.miner m
        { w.get m with best_chain := ch } hmlt
      simp only [World.get] at this ⊢
      omega
    have hS := sum_map_set (fun a => B - a.best_chain.length) w.miner m
      { w.get m with best_chain := ch } hmlt
    have hD := le_sum_map (fun a => a.peers.length) w.miner m
    refine ⟨?_, ?_, ?_⟩
    · intro x hx
      rw [hm1] at hx
      rcases List.mem_or_eq_of_mem_set hx with h | h
      · have := hm x h
        omega
      · rw [h]
        exact hch
    · intro x hx
      rw [hq1] at hx
      rcases List.mem_append.mp hx with h | h
      · have := hq x (hsub x h)
        omega
      · obtain ⟨p, _, hp⟩ := relayEntries_chain _ _ _ _ x h
        rw [hp]
        exact hch
    · unfold World.workLeft
      rw [hm1, hq1, hdeg, hL, List.length_append, relayEntries_length]
      simp only [World.get] at hS hD hlt hch ⊢
      have hd0 : (default : Miner).peers.length = 0 := rfl
      rw [hd0] at hD
      generalize (w.miner.map (fun a => a.peers.length)).sum = D at *
      generalize ((w.miner.set m { best_chain := ch, peers := (w.miner.getD m default).peers }).map
        (fun a => B - a.best_chain.length)).sum = S1 at *
      generalize (w.miner.map (fun a => B - a.best_chain.length)).sum = S at *
      have hS1 : S1 + 1 ≤ S := by omega
      have hmul := Nat.mul_le_mul_left (D + 1) hS1
      rw [Nat.mul_succ] at hmul
      omega

theorem step_none_of_empty (w : World) (h : w.simulator.taskQueue = []) : w.step = none := by
  unfold World.step CScheduler.popMin
  rw [h]

theorem empty_of_step_none (w : World) (h : w.step = none) : w.simulator.taskQueue = [] := by
  unfold World.step CScheduler.popMin at h
  cases hq : w.simulator.taskQueue with
  | nil => rfl
  | cons a l =>
    rw [hq] at h
    exact absurd h (by simp)

theorem serviceQueue_stable (n : Nat) (w : World)
    (h : (w.serviceQueue n).2.simulator.taskQueue = []) (k : Nat) :
    w.serviceQueue (n + k) = w.serviceQueue n := by
  induction n generalizing w with
  | zero =>
    have hs := step_none_of_empty w h
    cases k with
    | zero => rfl
    | succ k =>
      rw [Nat.zero_add]
      unfold World.serviceQueue
      rw [hs]
  | succ n ih =>
    rw [Nat.succ_add]
    unfold World.serviceQueue at h ⊢
    cases hs : w.step with
    | none => rfl
    | some r =>
      obtain ⟨e, w1⟩ := r
      rw [hs] at h
      simp only at h ⊢
      rw [ih w1 h]

theorem le_sum_of_mem (f : Miner → Nat) (l : List Miner) (x : Miner) (h : x ∈ l) :
    f x ≤ (l.map f).sum := by
  induction l with
  | nil => exact absurd h (List.not_mem_nil x)
  | cons a l ih =>
    simp only [List.map_cons, List.sum_cons]
    rcases List.mem_cons.mp h with h1 | h1
    · rw [h1]
      omega
    · have := ih h1
      omega

theorem le_sum_of_mem_entry (f : Entry → Nat) (l : List Entry) (x : Entry) (h : x ∈ l) :
    f x ≤ (l.map f).sum := by
  induction l with
  | nil => exact absurd h (List.not_mem_nil x)
  | cons a l ih =>
    simp only [List.map_cons, List.sum_cons]
    rcases List.mem_cons.mp h with h1 | h1
    · rw [h1]
      omega
    · have := ih h1
      omega

/-- The drain stops: once the fuel is at least the work that is left, the pending
set is empty at the end, and no more tasks than that were executed. -/
theorem serviceQueue_stops (B : Nat) (n : Nat) (w : World)
    (hm : ∀ x ∈ w.miner, x.best_chain.length + w.pendingFindBlocks ≤ B)
    (hq : ∀ x ∈ w.simulator.taskQueue, x.task.chainLen + w.pendingFindBlocks ≤ B)
    (hn : w.workLeft B ≤ n) :
    (w.serviceQueue n).2.simulator.taskQueue = [] ∧
      (w.serviceQueue n).1.length ≤ w.workLeft B := by
  induction n generalizing w with
  | zero =>
    have h0 : w.simulator.taskQueue.length = 0 := by
      unfold World.workLeft at hn
      omega
    exact ⟨List.length_eq_zero.mp h0, Nat.zero_le _⟩
  | succ n ih =>
    unfold World.serviceQueue
    cases hs : w.step with
    | none => exact ⟨empty_of_step_none w hs, Nat.zero_le _⟩
    | some r =>
      obtain ⟨e, w1⟩ := r
      obtain ⟨he, hw1⟩ := step_eq_runEntry w w1 e hs
      have hstep := runEntry_workLeft B w e he hm hq
      rw [← hw1] at hstep
      have hrec := ih w1 hstep.1 hstep.2.1 (by omega)
      refine ⟨hrec.1, ?_⟩
      simp only [List.length_cons]
      omega

theorem lengthBound_holds (w : World) :
    (∀ x ∈ w.miner, x.best_chain.length + w.pendingFindBlocks ≤ w.lengthBound) ∧
    (∀ x ∈ w.simulator.taskQueue, x.task.chainLen + w.pendingFindBlocks ≤ w.lengthBound) := by
  constructor
  · intro x hx
    have h : x.best_chain.length ≤ (w.miner.map (fun m => m.best_chain.length)).sum :=
      le_sum_of_mem (fun m => m.best_chain.length) w.miner x hx
    unfold World.lengthBound
    omega
  · intro x hx
    have h : x.task.chainLen ≤ (w.simulator.taskQueue.map (fun e => e.task.chainLen)).sum :=
      le_sum_of_mem_entry (fun e => e.task.chainLen) w.simulator.taskQueue x hx
    unfold World.lengthBound
    omega

/-- C11. The drain terminates: for every state `w` (any finite array of miners,
any finite peer lists with any latencies, duplicates and cycles, any finite
pending set, in particular any finite set of root `FindBlock` tasks) and every
clock, the drain stops within `w.drainBound` iterations: with that much fuel or
more the pending set is empty at the end, at most `w.drainBound` tasks were
executed, and more fuel changes neither the executed tasks nor the final state;
so the report of `main` is the same for all sufficient fuel. -/
theorem drain_terminates (w : World) (k : Nat) :
    (w.serviceQueue (w.drainBound + k)).2.simulator.taskQueue = [] ∧
    (w.serviceQueue (w.drainBound + k)).1.length ≤ w.drainBound ∧
    w.serviceQueue (w.drainBound + k) = w.serviceQueue w.drainBound ∧
    (∀ (n_blocks : Int) (draws : Nat → Draw) (readings : Nat → Time),
      main n_blocks draws readings ((mainSetup n_blocks draws readings).drainBound + k) =
        main n_blocks draws readings (mainSetup n_blocks draws readings).drainBound) := by
  have hstop : ∀ v : World, (v.serviceQueue v.drainBound).2.simulator.taskQueue = [] ∧
      (v.serviceQueue v.drainBound).1.length ≤ v.drainBound := fun v =>
    serviceQueue_stops v.lengthBound v.drainBound v (lengthBound_holds v).1
      (lengthBound_holds v).2 (Nat.le_refl _)
  have hstable : ∀ v : World, v.serviceQueue (v.drainBound + k) = v.serviceQueue v.drainBound :=
    fun v => serviceQueue_stable v.drainBound v (hstop v).1 k
  refine ⟨?_, ?_, hstable w, ?_⟩
  · rw [hstable w]
    exact (hstop w).1
  · rw [hstable w]
    exact (hstop w).2
  · intro n_blocks draws readings
    unfold main
    rw [hstable]

theorem keyLe_shift (c : Time) (a b : Entry) : (a.shift c).keyLe (b.shift c) = a.keyLe b := by
  simp [Entry.keyLe, Entry.shift]

theorem shift_injective (c : Time) : Function.Injective (Entry.shift c) := by
  intro a b h
  cases a
  cases b
  simp only [Entry.shift, Entry.mk.injEq] at h ⊢
  exact ⟨add_right_cancel h.1, h.2.1, h.2.2⟩

theorem minEntry_shift (c : Time) (e : Entry) (es : List Entry) :
    minEntry (e.shift c) (es.map (Entry.shift c)) = (minEntry e es).shift c := by
  induction es generalizing e with
  | nil => rfl
  | cons x xs ih =>
    simp only [List.map_cons, minEntry, keyLe_shift]
    split
    · exact ih e
    · exact ih x

theorem popMin_shift (c : Time) (s : CScheduler) :
    (s.shift c).popMin = s.popMin.map (fun r => (r.1.shift c, r.2.shift c)) := by
  unfold CScheduler.popMin
  cases hq : s.taskQueue with
  | nil => simp [CScheduler.shift, hq]
  | cons e es =>
    simp only [CScheduler.shift, hq, List.map_cons, Option.map_some', Option.some.injEq,
      Prod.mk.injEq, minEntry_shift, true_and, CScheduler.mk.injEq, and_true]
    rw [← List.map_cons, ← List.map_erase (shift_injective c)]

theorem relayEntries_shift (c now : Time) (chain : List Int) (seq : Nat)
    (ps : List (Nat × Int)) :
    relayEntries (now + c) chain seq ps = (relayEntries now chain seq ps).map (Entry.shift c) := by
  induction ps generalizing seq with
  | nil => rfl
  | cons p ps ih =>
    simp only [relayEntries, List.map_cons, ih, Entry.shift, List.cons.injEq, Entry.mk.injEq,
      and_true, true_and]
    exact Int.add_right_comm now c p.2

theorem execTask_shift (c : Time) (w : World) (t : Task) :
    (w.shift c).execTask t = (w.execTask t).shift c := by
  cases t with
  | FindBlock m b =>
    simp only [World.execTask, World.FindBlock, Miner.FindBlock, relayChain_eq, World.shift,
      CScheduler.shift, World.get, relayEntries_shift, List.map_append]
  | ConsiderChain m ch =>
    simp only [World.execTask, World.ConsiderChain, Miner.ConsiderChain, World.shift,
      CScheduler.shift, World.get]
    split
    · simp only [relayChain_eq, relayEntries_shift, List.map_append]
    · rfl

theorem step_shift (c : Time) (w : World) :
    (w.shift c).step = w.step.map (fun r => (r.1.shift c, r.2.shift c)) := by
  unfold World.step
  have hp : (w.shift c).simulator.popMin =
      w.simulator.popMin.map (fun r => (r.1.shift c, r.2.shift c)) := popMin_shift c w.simulator
  rw [hp]
  cases w.simulator.popMin with
  | none => rfl
  | some r =>
    obtain ⟨e, s⟩ := r
    simp only [Option.map_some', Option.some.injEq, Prod.mk.injEq, true_and]
    exact execTask_shift c { w with simulator := s } e.task

theorem serviceQueue_shift (c : Time) (n : Nat) (w : World) :
    (w.shift c).serviceQueue n =
      ((w.serviceQueue n).1.map (Entry.shift c), (w.serviceQueue n).2.shift c) := by
  induction n generalizing w with
  | zero => rfl
  | succ n ih =>
    unfold World.serviceQueue
    rw [step_shift]
    cases w.step with
    | none => rfl
    | some r =>
      obtain ⟨e, w1⟩ := r
      simp only [Option.map_some', ih, List.map_cons]

theorem scheduleRoots_shift (c : Time) (draws : Nat → Draw) (count i : Nat) (t : Time)
    (s : CScheduler) :
    scheduleRoots draws count i (t + c) (s.shift c) =
      (scheduleRoots draws count i t s).shift c := by
  induction count generalizing i t s with
  | zero => rfl
  | succ n ih =>
    unfold scheduleRoots
    simp only
    have e1 : t + c + truncToInt (toDouble ((draws i).block_time * 600)) =
        t + truncToInt (toDouble ((draws i).block_time * 600)) + c := Int.add_right_comm _ _ _
    rw [e1, ← ih]
    congr 1
    simp [CScheduler.schedule, CScheduler.shift, Entry.shift]

theorem shift_miner (c : Time) (w : World) : (w.shift c).miner = w.miner := rfl

theorem shift_simulator (c : Time) (w : World) : (w.shift c).simulator = w.simulator.shift c :=
  rfl

theorem shift_clock (c : Time) (w : World) :
    (w.shift c).clock =
      { readings := fun i => w.clock.readings i + c, calls := w.clock.calls } := rfl

theorem world_ext (w v : World) (h1 : w.miner = v.miner) (h2 : w.simulator = v.simulator)
    (h3 : w.clock = v.clock) : w = v := by
  cases w
  cases v
  simp only at h1 h2 h3
  rw [h1, h2, h3]

theorem mainSetup_shift (c : Time) (n_blocks : Int) (draws : Nat → Draw)
    (readings : Nat → Time) :
    mainSetup n_blocks draws (fun i => readings i + c) =
      (mainSetup n_blocks draws readings).shift c := by
  apply world_ext
  · rw [shift_miner, mainSetup_miner, mainSetup_miner]
  · rw [shift_simulator, mainSetup_simulator, mainSetup_simulator, ← scheduleRoots_shift]
    rfl
  · rw [shift_clock, mainSetup_clock, mainSetup_clock]

/-- C12 (as the code has it). Reproducibility up to the clock: two runs of `main`
with the same number of blocks and the same draws of the seeded engine, in which
the clock returns the same values up to one constant offset `c` added to every
reading, print the same (tip, length) lines, for every bound on the number of
executed tasks; and the executed tasks are the same, with their times moved by
`c`. -/
theorem main_reproducible_up_to_clock_offset (n_blocks : Int) (draws : Nat → Draw)
    (readings : Nat → Time) (c : Time) (fuel : Nat) :
    main n_blocks draws (fun i => readings i + c) fuel = main n_blocks draws readings fuel ∧
    ((mainSetup n_blocks draws (fun i => readings i + c)).serviceQueue fuel).1 =
      ((mainSetup n_blocks draws readings).serviceQueue fuel).1.map (Entry.shift c) := by
  unfold main
  rw [mainSetup_shift, serviceQueue_shift]
  exact ⟨rfl, rfl⟩

/-- C12, counterexample. Two runs of `main` with the same two blocks (found by
miner 0 and by miner 4, one mean interval apart) and different clocks. With a
clock that returns 0, 2000, 4000, ... the relay of the first block is timed after
the second root event, miner 4 builds on the empty chain, and at the end of the
drain miners 0 to 3 report (0, 1) and miners 4 to 6 report (1, 1). With a clock
that returns 0, 1, 2, ... the first block reaches miner 4 before it finds the
second, and all miners report (1, 2). -/
theorem main_clock_dependence_counterexample :
    main 2 (fun i => { which_miner := 4 * i, block_time := 1 }) (fun n => 2000 * (n : Int)) 100 =
      [(0, 1), (0, 1), (0, 1), (0, 1), (1, 1), (1, 1), (1, 1)] ∧
    main 2 (fun i => { which_miner := 4 * i, block_time := 1 }) (fun n => (n : Int)) 100 =
      [(1, 2), (1, 2), (1, 2), (1, 2), (1, 2), (1, 2), (1, 2)] ∧
    ((mainSetup 2 (fun i => { which_miner := 4 * i, block_time := 1 })
        (fun n => 2000 * (n : Int))).serviceQueue 100).2.simulator.taskQueue = [] ∧
    ((mainSetup 2 (fun i => { which_miner := 4 * i, block_time := 1 })
        (fun n => (n : Int))).serviceQueue 100).2.simulator.taskQueue = [] ∧
    main 2 (fun i => { which_miner := 4 * i, block_time := 1 }) (fun n => 2000 * (n : Int)) 100 ≠
      main 2 (fun i => { which_miner := 4 * i, block_time := 1 }) (fun n => (n : Int)) 100 := by
  decide!

theorem relayEntries_blocks (now : Time) (chain : List Int) (seq : Nat) (ps : List (Nat × Int)) :
    (relayEntries now chain seq ps).filterMap (fun e => e.task.blockNumber?) = [] := by
  induction ps generalizing seq with
  | nil => rfl
  | cons p ps ih =>
    rw [relayEntries, List.filterMap_cons]
    simp only [Task.blockNumber?]
    exact ih (seq + 1)

theorem pendingBlocks_perm (w : World) (e : Entry) (he : e ∈ w.simulator.taskQueue) :
    w.pendingBlocks.Perm
      ((match e.task.blockNumber? with
        | some b => [b]
        | none => []) ++
        (w.simulator.taskQueue.erase e).filterMap (fun x => x.task.blockNumber?)) := by
  unfold World.pendingBlocks
  have h := (List.perm_cons_erase he).filterMap (fun x => x.task.blockNumber?)
  rw [List.filterMap_cons] at h
  cases hb : e.task.blockNumber? with
  | none =>
    rw [hb] at h
    exact h
  | some b =>
    rw [hb] at h
    exact h

theorem pendingBlocks_runEntry (w : World) (e : Entry) :
    (w.runEntry e).pendingBlocks =
      (w.simulator.taskQueue.erase e).filterMap (fun x => x.task.blockNumber?) := by
  unfold World.pendingBlocks
  rcases runEntry_cases w e with ⟨_, hq, _, _⟩ | ⟨m, ch, _, _, _, _, hq⟩
  · rw [hq]
  · rw [hq, List.filterMap_append, relayEntries_blocks, List.append_nil]

theorem historyOk_runEntry (n : Nat) (w : World) (e : Entry) (he : e ∈ w.simulator.taskQueue)
    (h : w.historyOk n) : (w.runEntry e).historyOk n := by
  obtain ⟨hnd, hrange, hminers, hpending⟩ := h
  have hperm := pendingBlocks_perm w e he
  have hP := pendingBlocks_runEntry w e
  have hnd2 := (hperm.nodup_iff).mp hnd
  have hsubP : ∀ b, b ∈ (w.runEntry e).pendingBlocks → b ∈ w.pendingBlocks := by
    intro b hb
    rw [hP] at hb
    exact hperm.mem_iff.mpr (List.mem_append_right _ hb)
  have hsubQ : ∀ x ∈ w.simulator.taskQueue.erase e, x ∈ w.simulator.taskQueue :=
    fun x hx => List.mem_of_mem_erase hx
  have hkeep : ∀ c, w.isHistory n c → (w.runEntry e).isHistory n c := by
    intro c hc
    exact ⟨hc.1, fun b hb => ⟨(hc.2 b hb).1, (hc.2 b hb).2.1,
      fun hmem => (hc.2 b hb).2.2 (hsubP b hmem)⟩⟩
  have hnd1 : (w.runEntry e).pendingBlocks.Nodup := by
    rw [hP]
    exact (List.nodup_append.mp hnd2).2.1
  have hrange1 : ∀ b ∈ (w.runEntry e).pendingBlocks, 0 ≤ b ∧ b < (n : Int) :=
    fun b hb => hrange b (hsubP b hb)
  rcases runEntry_cases w e with ⟨hm1, hq1, _, _⟩ | ⟨m, ch, hmlt, hlt, hkind, hm1, hq1⟩
  · refine ⟨hnd1, hrange1, ?_, ?_⟩
    · intro x hx
      rw [hm1] at hx
      exact hkeep _ (hminers x hx)
    · intro x hx t c hc
      rw [hq1] at hx
      exact hkeep _ (hpending x (hsubQ x hx) t c hc)
  · have hch : (w.runEntry e).isHistory n ch := by
      rcases hkind with ⟨b, hb, hcb⟩ | hc
      · have hold := hminers _ (get_mem w m hmlt)
        have hbn : e.task.blockNumber? = some b := by
          rw [hb]
          rfl
        rw [hbn] at hperm hnd2
        have hbP : b ∈ w.pendingBlocks := hperm.mem_iff.mpr (by simp)
        have hbnot : b ∉ (w.runEntry e).pendingBlocks := by
          rw [hP]
          intro hmem
          have := List.nodup_append.mp hnd2
          exact this.2.2 (List.mem_singleton_self b) hmem
        have hbchain : b ∉ (w.get m).best_chain := fun hmem => (hold.2 b hmem).2.2 hbP
        rw [hcb]
        refine ⟨?_, ?_⟩
        · rw [List.nodup_append]
          refine ⟨hold.1, List.nodup_singleton b, ?_⟩
          intro x hx1 hx2
          rw [List.mem_singleton.mp hx2] at hx1
          exact hbchain hx1
        · intro x hx
          rcases List.mem_append.mp hx with h1 | h1
          · exact (hkeep _ hold).2 x h1
          · rw [List.mem_singleton.mp h1]
            exact ⟨(hrange b hbP).1, (hrange b hbP).2, hbnot⟩
      · exact hkeep _ (hpending e he m ch hc)
    refine ⟨hnd1, hrange1, ?_, ?_⟩
    · intro x hx
      rw [hm1] at hx
      rcases List.mem_or_eq_of_mem_set hx with h1 | h1
      · exact hkeep _ (hminers x h1)
      · rw [h1]
        exact hch
    · intro x hx t c hc
      rw [hq1] at hx
      rcases List.mem_append.mp hx with h1 | h1
      · exact hkeep _ (hpending x (hsubQ x h1) t c hc)
      · obtain ⟨p, _, hp⟩ := relayEntries_chain _ _ _ _ x h1
        rw [hp] at hc
        cases hc
        exact hch

theorem historyOk_runChoices (n : Nat) (choices : List Nat) (w : World) (h : w.historyOk n) :
    (w.runChoices choices).historyOk n := by
  induction choices generalizing w with
  | nil => exact h
  | cons i rest ih =>
    unfold World.runChoices
    split
    · exact ih w h
    · rename_i e he
      exact ih _ (historyOk_runEntry n w e (List.getElem?_mem he) h)

theorem historyOk_serviceQueue (n : Nat) (fuel : Nat) (w : World) (h : w.historyOk n) :
    (w.serviceQueue fuel).2.historyOk n := by
  induction fuel generalizing w with
  | zero => exact h
  | succ k ih =>
    unfold World.serviceQueue
    split
    · exact h
    · rename_i e w1 hs
      obtain ⟨he, hw1⟩ := step_eq_runEntry w w1 e hs
      rw [hw1]
      exact ih _ (historyOk_runEntry n w e he h)

theorem mainSetup_tasks (n_blocks : Int) (draws : Nat → Draw) (readings : Nat → Time) :
    (mainSetup n_blocks draws readings).simulator.taskQueue.map (fun e => e.task) =
      (List.range' 0 n_blocks.toNat).map
        (fun j => Task.FindBlock (draws j).which_miner (j : Int)) := by
  rw [mainSetup_simulator, scheduleRoots_tasks]
  rfl

theorem mainSetup_pendingBlocks (n_blocks : Int) (draws : Nat → Draw) (readings : Nat → Time) :
    (mainSetup n_blocks draws readings).pendingBlocks =
      (List.range' 0 n_blocks.toNat).map (fun (j : Nat) => (j : Int)) := by
  have h : (mainSetup n_blocks draws readings).pendingBlocks =
      ((mainSetup n_blocks draws readings).simulator.taskQueue.map (fun e => e.task)).filterMap
        Task.blockNumber? := by
    unfold World.pendingBlocks
    rw [List.filterMap_map]
    rfl
  rw [h, mainSetup_tasks, List.filterMap_map]
  induction (List.range' 0 n_blocks.toNat) with
  | nil => rfl
  | cons a l ih =>
    rw [List.filterMap_cons, List.map_cons, ← ih]
    rfl

theorem mainSetup_historyOk (n_blocks : Int) (draws : Nat → Draw) (readings : Nat → Time) :
    (mainSetup n_blocks draws readings).historyOk n_blocks.toNat := by
  refine ⟨?_, ?_, ?_, ?_⟩
  · rw [mainSetup_pendingBlocks]
    exact (List.nodup_range' 0 n_blocks.toNat).map (fun a b h => by exact_mod_cast h)
  · intro b hb
    rw [mainSetup_pendingBlocks] at hb
    obtain ⟨j, hj, hjb⟩ := List.mem_map.mp hb
    have h2 := (List.mem_range'_1.mp hj).2
    rw [← hjb]
    constructor
    · exact Int.ofNat_nonneg j
    · exact_mod_cast (by omega : j < n_blocks.toNat)
  · intro m hm
    rw [mainSetup_miner] at hm
    have hchain : m.best_chain = [] := by
      revert m
      decide
    rw [World.isHistory, hchain]
    exact ⟨List.nodup_nil, fun b hb => absurd hb (List.not_mem_nil b)⟩
  · intro e he t c hc
    have hmem : e.task ∈ (mainSetup n_blocks draws readings).simulator.taskQueue.map
        (fun e => e.task) := List.mem_map_of_mem _ he
    rw [mainSetup_tasks] at hmem
    obtain ⟨j, _, hj⟩ := List.mem_map.mp hmem
    rw [hc] at hj
    cases hj

theorem nodup_range_length (c : List Int) (n : Nat) (hnd : c.Nodup)
    (hr : ∀ b ∈ c, 0 ≤ b ∧ b < (n : Int)) : c.length ≤ n := by
  have hsub : c ⊆ (List.range n).map (fun (j : Nat) => (j : Int)) := by
    intro b hb
    obtain ⟨h0, h1⟩ := hr b hb
    refine List.mem_map.mpr ⟨b.toNat, List.mem_range.mpr ?_, Int.toNat_of_nonneg h0⟩
    omega
  have h := (List.subperm_of_subset hnd hsub).length_le
  simpa using h

theorem tip_sentinel (m : Miner) (h : ∀ b ∈ m.best_chain, (0 : Int) ≤ b) :
    (m.GetChainTip = -1 ↔ m.GetChainLen = 0) ∧ (m.GetChainTip = -1 ↔ m.best_chain = []) := by
  unfold Miner.GetChainTip Miner.GetChainLen
  cases hc : m.best_chain with
  | nil => simp
  | cons a l =>
    have hne : a :: l ≠ [] := List.cons_ne_nil a l
    rw [List.getLast?_eq_getLast _ hne]
    have hmem : (a :: l).getLast hne ∈ m.best_chain := by
      rw [hc]
      exact List.getLast_mem hne
    have h0 := h _ hmem
    simp only [List.length_cons, Nat.add_one_ne_zero, iff_false, reduceCtorEq]
    constructor <;> omega

theorem history_in_range (n_blocks : Int) (w : World) (chain : List Int)
    (h : w.isHistory n_blocks.toNat chain) :
    chain.Nodup ∧ (∀ b ∈ chain, 0 ≤ b ∧ b < n_blocks ∧ b ∉ w.pendingBlocks) ∧
      chain.length ≤ n_blocks.toNat := by
  refine ⟨h.1, ?_, nodup_range_length chain _ h.1 (fun b hb => ⟨(h.2 b hb).1, (h.2 b hb).2.1⟩)⟩
  intro b hb
  obtain ⟨h0, h1, h2⟩ := h.2 b hb
  refine ⟨h0, ?_, h2⟩
  omega

/-- C19 (as the code has it). Chains are duplicate-free histories of found
blocks: in every run of `main`, after any number of pending tasks executed in
any order, and after any number of iterations of the drain, the pending root
tasks carry distinct block numbers, and every best chain and every chain carried
by a pending `ConsiderChain` task repeats no block number and holds only block
numbers of `0 .. n_blocks - 1` that no pending root task carries (their
`FindBlock` task has been executed); hence the length of every chain, and every
reported length, is at most `n_blocks` when `n_blocks` is not negative, and 0
otherwise. -/
theorem chains_are_histories (n_blocks : Int) (draws : Nat → Draw) (readings : Nat → Time)
    (choices : List Nat) (fuel : Nat) :
    ((mainSetup n_blocks draws readings).runChoices choices).historyOk n_blocks.toNat ∧
    ((mainSetup n_blocks draws readings).serviceQueue fuel).2.historyOk n_blocks.toNat ∧
    (∀ m ∈ ((mainSetup n_blocks draws readings).runChoices choices).miner,
      m.best_chain.Nodup ∧
      (∀ b ∈ m.best_chain, 0 ≤ b ∧ b < n_blocks ∧
        b ∉ ((mainSetup n_blocks draws readings).runChoices choices).pendingBlocks) ∧
      m.best_chain.length ≤ n_blocks.toNat) ∧
    (∀ e ∈ ((mainSetup n_blocks draws readings).runChoices choices).simulator.taskQueue,
      ∀ t c, e.task = Task.ConsiderChain t c →
        c.Nodup ∧
        (∀ b ∈ c, 0 ≤ b ∧ b < n_blocks ∧
          b ∉ ((mainSetup n_blocks draws readings).runChoices choices).pendingBlocks) ∧
        c.length ≤ n_blocks.toNat) ∧
    (∀ p ∈ report ((mainSetup n_blocks draws readings).runChoices choices),
      p.2 ≤ n_blocks.toNat) ∧
    (∀ p ∈ main n_blocks draws readings fuel, p.2 ≤ n_blocks.toNat) := by
  have h1 := historyOk_runChoices n_blocks.toNat choices _
    (mainSetup_historyOk n_blocks draws readings)
  have h2 := historyOk_serviceQueue n_blocks.toNat fuel _
    (mainSetup_historyOk n_blocks draws readings)
  refine ⟨h1, h2, ?_, ?_, ?_, ?_⟩
  · intro m hm
    exact history_in_range n_blocks _ _ (h1.2.2.1 m hm)
  · intro e he t c hc
    exact history_in_range n_blocks _ _ (h1.2.2.2 e he t c hc)
  · intro p hp
    obtain ⟨m, hm, hmp⟩ := List.mem_map.mp hp
    rw [← hmp]
    exact (history_in_range n_blocks _ _ (h1.2.2.1 m hm)).2.2
  · intro p hp
    obtain ⟨m, hm, hmp⟩ := List.mem_map.mp hp
    rw [← hmp]
    exact (history_in_range n_blocks _ _ (h2.2.2.1 m hm)).2.2

/-- C19, counterexample. With a negative number of blocks the root event loop
does not run, every miner reports the length 0, and 0 is not at most -3. -/
theorem chain_length_negative_counterexample :
    main (-3) (fun _ => { which_miner := 0, block_time := 1 }) (fun n => (n : Int)) 10 =
      [(-1, 0), (-1, 0), (-1, 0), (-1, 0), (-1, 0), (-1, 0), (-1, 0)] ∧
    ¬ (∀ p ∈ main (-3) (fun _ => { which_miner := 0, block_time := 1 }) (fun n => (n : Int)) 10,
        ((p.2 : Nat) : Int) ≤ -3) := by
  decide!

/-- C20. The empty sentinel is unambiguous: in every run of `main`, for every
number of blocks (zero and negative ones included), every draws and clock, after
any number of pending tasks executed in any order and after any number of
iterations of the drain, each reported tip is -1 if and only if the reported
length is 0, that is, if and only if the best chain of that miner is empty; the
root tasks that `main` schedules are `FindBlock` tasks with block numbers in
`0 .. n_blocks - 1`. -/
theorem empty_sentinel_unambiguous (n_blocks : Int) (draws : Nat → Draw)
    (readings : Nat → Time) (choices : List Nat) (fuel : Nat) :
    (∀ p ∈ report ((mainSetup n_blocks draws readings).runChoices choices),
      p.1 = -1 ↔ p.2 = 0) ∧
    (∀ p ∈ main n_blocks draws readings fuel, p.1 = -1 ↔ p.2 = 0) ∧
    (∀ m ∈ ((mainSetup n_blocks draws readings).runChoices choices).miner,
      m.GetChainTip = -1 ↔ m.best_chain = []) ∧
    (∀ m ∈ ((mainSetup n_blocks draws readings).serviceQueue fuel).2.miner,
      m.GetChainTip = -1 ↔ m.best_chain = []) ∧
    (∀ e ∈ (mainSetup n_blocks draws readings).simulator.taskQueue,
      ∃ m b, e.task = Task.FindBlock m b ∧ 0 ≤ b ∧ b < n_blocks) := by
  have h1 := historyOk_runChoices n_blocks.toNat choices _
    (mainSetup_historyOk n_blocks draws readings)
  have h2 := historyOk_serviceQueue n_blocks.toNat fuel _
    (mainSetup_historyOk n_blocks draws readings)
  refine ⟨?_, ?_, ?_, ?_, ?_⟩
  · intro p hp
    obtain ⟨m, hm, hmp⟩ := List.mem_map.mp hp
    rw [← hmp]
    exact (tip_sentinel m (fun b hb => ((h1.2.2.1 m hm).2 b hb).1)).1
  · intro p hp
    obtain ⟨m, hm, hmp⟩ := List.mem_map.mp hp
    rw [← hmp]
    exact (tip_sentinel m (fun b hb => ((h2.2.2.1 m hm).2 b hb).1)).1
  · intro m hm
    exact (tip_sentinel m (fun b hb => ((h1.2.2.1 m hm).2 b hb).1)).2
  · intro m hm
    exact (tip_sentinel m (fun b hb => ((h2.2.2.1 m hm).2 b hb).1)).2
  · intro e he
    have hmem : e.task ∈ (mainSetup n_blocks draws readings).simulator.taskQueue.map
        (fun e => e.task) := List.mem_map_of_mem _ he
    rw [mainSetup_tasks] at hmem
    obtain ⟨j, hj, hje⟩ := List.mem_map.mp hmem
    have hlt := (List.mem_range'_1.mp hj).2
    refine ⟨(draws j).which_miner, (j : Int), hje.symm, Int.ofNat_nonneg j, ?_⟩
    omega

theorem relayEntries_mem (now : Time) (chain : List Int) (seq : Nat) (ps : List (Nat × Int))
    (b : Nat) (hb : b ∈ ps.map Prod.fst) :
    ∃ x ∈ relayEntries now chain seq ps, x.task = Task.ConsiderChain b chain := by
  induction ps generalizing seq with
  | nil => exact absurd hb (List.not_mem_nil b)
  | cons p ps ih =>
    simp only [List.map_cons, List.mem_cons] at hb
    rcases hb with h | h
    · exact ⟨_, List.mem_cons_self _ _, by rw [h]⟩
    · obtain ⟨x, hx, hxt⟩ := ih (seq + 1) h
      exact ⟨x, List.mem_cons_of_mem _ hx, hxt⟩

theorem linked_lt (w : World) (a b : Nat) (h : w.linked a b) : a < w.miner.length := by
  by_contra hn
  unfold World.linked at h
  rw [get_of_le w a (Nat.le_of_not_lt hn)] at h
  exact absurd h (List.not_mem_nil b)

/-- What the execution of a pending entry does to the miners, seen through the
pointers: either every miner is as before, or one existing miner `m` has a new,
strictly longer best chain `ch`, relayed to its peers. -/
theorem runEntry_get (w : World) (e : Entry) :
    ((∀ k, (w.runEntry e).get k = w.get k) ∧
      (w.runEntry e).simulator.taskQueue = w.simulator.taskQueue.erase e ∧
      (∀ m c, e.task = Task.ConsiderChain m c →
        c.length ≤ (w.get m).best_chain.length ∨ w.miner.length ≤ m)) ∨
    (∃ m ch, m < w.miner.length ∧ (w.get m).best_chain.length < ch.length ∧
      (∀ t c, e.task = Task.ConsiderChain t c → t = m ∧ c = ch) ∧
      (∀ k, (w.runEntry e).get k =
        if m = k then { w.get m with best_chain := ch } else w.get k) ∧
      (w.runEntry e).simulator.taskQueue =
        w.simulator.taskQueue.erase e ++
          relayEntries (w.clock.readings w.clock.calls) ch w.simulator.nextSeq
            (w.get m).peers) := by
  rcases runEntry_cases w e with ⟨hm1, hq1, _, hc⟩ | ⟨m, ch, hmlt, hlt, hkind, hm1, hq1⟩
  · left
    refine ⟨?_, hq1, hc⟩
    intro k
    unfold World.get
    rw [hm1]
  · right
    refine ⟨m, ch, hmlt, hlt, ?_, ?_, hq1⟩
    · intro t c htc
      rcases hkind with ⟨b, hb, _⟩ | hk
      · rw [hb] at htc
        cases htc
      · rw [hk] at htc
        cases htc
        exact ⟨rfl, rfl⟩
    · intro k
      have h : (w.runEntry e).get k =
          (w.miner.set m { w.get m with best_chain := ch }).getD k default := by
        unfold World.get
        rw [hm1]
        rfl
      rw [h, getD_set]
      by_cases hk : m = k
      · rw [if_pos ⟨hk, hmlt⟩, if_pos hk]
      · rw [if_neg (fun hc => hk hc.1), if_neg hk]
        rfl

theorem linked_runEntry (w : World) (e : Entry) (a b : Nat) :
    (w.runEntry e).linked a b ↔ w.linked a b := by
  unfold World.linked
  have h : ((w.runEntry e).get a).peers = (w.get a).peers := by
    rcases runEntry_get w e with ⟨hg, _, _⟩ | ⟨m, ch, _, _, _, hg, _⟩
    · rw [hg a]
    · rw [hg a]
      split
      · rename_i hk
        rw [hk]
      · rfl
  rw [h]

theorem length_runEntry (w : World) (e : Entry) :
    (w.runEntry e).miner.length = w.miner.length := by
  rcases runEntry_cases w e with ⟨hm1, _, _, _⟩ | ⟨m, ch, _, _, _, hm1, _⟩
  · rw [hm1]
  · rw [hm1, List.length_set]

theorem relayed_runEntry (w : World) (e : Entry)
    (hrange : ∀ a b, w.linked a b → b < w.miner.length) (h : w.relayed) :
    (w.runEntry e).relayed := by
  intro a b hab
  rw [linked_runEntry] at hab
  have hold := h a b hab
  have hb := hrange a b hab
  rcases runEntry_get w e with ⟨hg, hq, hc⟩ | ⟨m, ch, hmlt, hlt, hkind, hg, hq⟩
  · rw [hg a, hg b, hq]
    rcases hold with h1 | ⟨x, hx, c, hxc, hlen⟩
    · exact Or.inl h1
    · by_cases hxe : x = e
      · rw [hxe] at hxc
        rcases hc b c hxc with h2 | h2
        · exact Or.inl (Nat.le_trans hlen h2)
        · omega
      · exact Or.inr ⟨x, (List.mem_erase_of_ne hxe).mpr hx, c, hxc, hlen⟩
  · have hmono : (w.get b).best_chain.length ≤ ((w.runEntry e).get b).best_chain.length := by
      rw [hg b]
      split
      · rename_i hk
        rw [← hk]
        exact Nat.le_of_lt hlt
      · exact Nat.le_refl _
    by_cases ham : m = a
    · right
      obtain ⟨x, hx, hxt⟩ := relayEntries_mem (w.clock.readings w.clock.calls) ch
        w.simulator.nextSeq (w.get m).peers b (by rw [ham]; exact hab)
      refine ⟨x, ?_, ch, hxt, ?_⟩
      · rw [hq]
        exact List.mem_append_right _ hx
      · rw [hg a, if_pos ham]
    · have ha : (w.runEntry e).get a = w.get a := by rw [hg a, if_neg ham]
      rw [ha]
      rcases hold with h1 | ⟨x, hx, c, hxc, hlen⟩
      · exact Or.inl (Nat.le_trans h1 hmono)
      · by_cases hxe : x = e
        · rw [hxe] at hxc
          obtain ⟨hbm, hcch⟩ := hkind b c hxc
          left
          rw [hg b, if_pos hbm.symm]
          rw [hcch] at hlen
          exact hlen
        · right
          refine ⟨x, ?_, c, hxc, hlen⟩
          rw [hq]
          exact List.mem_append_left _ ((List.mem_erase_of_ne hxe).mpr hx)

theorem relayed_runChoices (choices : List Nat) (w : World)
    (hrange : ∀ a b, w.linked a b → b < w.miner.length) (h : w.relayed) :
    (w.runChoices choices).relayed ∧
      (∀ a b, (w.runChoices choices).linked a b ↔ w.linked a b) := by
  induction choices generalizing w with
  | nil => exact ⟨h, fun a b => Iff.rfl⟩
  | cons i rest ih =>
    unfold World.runChoices
    split
    · exact ih w hrange h
    · rename_i e _
      have hr : ∀ a b, (w.runEntry e).linked a b → b < (w.runEntry e).miner.length := by
        intro a b hab
        rw [length_runEntry]
        exact hrange a b ((linked_runEntry w e a b).mp hab)
      have h2 := ih (w.runEntry e) hr (relayed_runEntry w e hrange h)
      exact ⟨h2.1, fun a b => (h2.2 a b).trans (linked_runEntry w e a b)⟩

theorem serviceQueue_runChoices (fuel : Nat) (w : World) :
    ∃ choices, (w.serviceQueue fuel).2 = w.runChoices choices := by
  induction fuel generalizing w with
  | zero => exact ⟨[], rfl⟩
  | succ n ih =>
    unfold World.serviceQueue
    cases hs : w.step with
    | none => exact ⟨[], rfl⟩
    | some r =>
      obtain ⟨e, w1⟩ := r
      obtain ⟨he, hw1⟩ := step_eq_runEntry w w1 e hs
      obtain ⟨i, hi⟩ := List.mem_iff_getElem?.mp he
      obtain ⟨cs, hcs⟩ := ih w1
      refine ⟨i :: cs, ?_⟩
      simp only [World.runChoices, hi]
      rw [← hw1]
      exact hcs

theorem relayed_of_empty_chains (w : World) (h : ∀ m ∈ w.miner, m.best_chain = []) :
    w.relayed := by
  intro a b _
  left
  have ha : (w.get a).best_chain = [] := by
    by_cases hlt : a < w.miner.length
    · exact h _ (get_mem w a hlt)
    · rw [get_of_le w a (Nat.le_of_not_lt hlt)]
      rfl
  rw [ha]
  exact Nat.zero_le _

theorem equal_length_of_quiet (w : World) (hq : w.simulator.taskQueue = []) (h : w.relayed)
    (hsym : ∀ a b, w.linked a b → w.linked b a) (a b : Nat)
    (hab : Relation.ReflTransGen w.linked a b) :
    (w.get a).best_chain.length = (w.get b).best_chain.length := by
  have hle : ∀ x y, w.linked x y →
      (w.get x).best_chain.length ≤ (w.get y).best_chain.length := by
    intro x y hxy
    rcases h x y hxy with h1 | ⟨e, he, _⟩
    · exact h1
    · rw [hq] at he
      exact absurd he (List.not_mem_nil e)
  induction hab with
  | refl => rfl
  | tail _ hbc ih =>
    exact ih.trans (Nat.le_antisymm (hle _ _ hbc) (hle _ _ (hsym _ _ hbc)))

theorem mainSetup_linked_iff (n_blocks : Int) (draws : Nat → Draw) (readings : Nat → Time)
    (a b : Nat) :
    (mainSetup n_blocks draws readings).linked a b ↔
      b ∈ (((List.range 7).map (fun k => ({ peers := specPeers k } : Miner))).getD a
        default).peers.map Prod.fst := by
  unfold World.linked
  rw [get_mainSetup]

theorem mainSetup_linked_symm (n_blocks : Int) (draws : Nat → Draw) (readings : Nat → Time)
    (a b : Nat) (h : (mainSetup n_blocks draws readings).linked a b) :
    (mainSetup n_blocks draws readings).linked b a := by
  rw [mainSetup_linked_iff] at h ⊢
  by_cases ha : a < 7
  · have hb : b < 7 := by
      interval_cases a <;> simp [specPeers] at h <;> omega
    revert h
    interval_cases a <;> interval_cases b <;> decide
  · rw [List.getD_eq_default _ _ (by simpa using Nat.le_of_not_lt ha)] at h
    exact absurd h (List.not_mem_nil b)

theorem mainSetup_connected (n_blocks : Int) (draws : Nat → Draw) (readings : Nat → Time)
    (a b : Nat) (ha : a < 7) (hb : b < 7) :
    Relation.ReflTransGen (mainSetup n_blocks draws readings).linked a b := by
  have hlink1 : ∀ x, x < 7 → x ≠ 1 →
      (mainSetup n_blocks draws readings).linked x 1 ∧
        (mainSetup n_blocks draws readings).linked 1 x := by
    intro x hx hne
    rw [mainSetup_linked_iff, mainSetup_linked_iff]
    interval_cases x <;> first | exact absurd rfl hne | decide
  by_cases ha1 : a = 1
  · by_cases hb1 : b = 1
    · rw [ha1, hb1]
    · rw [ha1]
      exact Relation.ReflTransGen.single (hlink1 b hb hb1).2
  · by_cases hb1 : b = 1
    · rw [hb1]
      exact Relation.ReflTransGen.single (hlink1 a ha ha1).1
    · exact Relation.ReflTransGen.trans
        (Relation.ReflTransGen.single (hlink1 a ha ha1).1)
        (Relation.ReflTransGen.single (hlink1 b hb hb1).2)

theorem mainSetup_chains_empty (n_blocks : Int) (draws : Nat → Draw) (readings : Nat → Time) :
    ∀ m ∈ (mainSetup n_blocks draws readings).miner, m.best_chain = [] := by
  rw [mainSetup_miner]
  decide

theorem mainSetup_length (n_blocks : Int) (draws : Nat → Draw) (readings : Nat → Time) :
    (mainSetup n_blocks draws readings).miner.length = 7 := by
  rw [mainSetup_miner]
  rfl

theorem length_runChoices (choices : List Nat) (w : World) :
    (w.runChoices choices).miner.length = w.miner.length := by
  have h := congrArg List.length (map_peers_runChoices choices w)
  simpa using h

theorem report_lengths_equal (w : World)
    (h : ∀ a b, a < w.miner.length → b < w.miner.length →
      (w.get a).best_chain.length = (w.get b).best_chain.length) :
    ∀ p ∈ report w, ∀ q ∈ report w, p.2 = q.2 := by
  have hget : ∀ m ∈ w.miner, ∃ i, i < w.miner.length ∧ w.get i = m := by
    intro m hm
    obtain ⟨i, hi, him⟩ := List.getElem_of_mem hm
    refine ⟨i, hi, ?_⟩
    unfold World.get
    rw [List.getD_eq_getElem _ _ hi]
    exact him
  intro p hp q hq
  obtain ⟨m1, hm1, hp1⟩ := List.mem_map.mp hp
  obtain ⟨m2, hm2, hq2⟩ := List.mem_map.mp hq
  obtain ⟨i, hi, him⟩ := hget m1 hm1
  obtain ⟨j, hj, hjm⟩ := hget m2 hm2
  rw [← hp1, ← hq2, ← him, ← hjm]
  exact h i j hi hj

theorem quiet_lengths_equal (w : World) (choices : List Nat)
    (hinit : ∀ m ∈ w.miner, m.best_chain = [])
    (hsym : ∀ a b, w.linked a b → w.linked b a)
    (hconn : ∀ a b, a < w.miner.length → b < w.miner.length →
      Relation.ReflTransGen w.linked a b)
    (hquiet : (w.runChoices choices).simulator.taskQueue = [])
    (a b : Nat) (ha : a < w.miner.length) (hb : b < w.miner.length) :
    ((w.runChoices choices).get a).best_chain.length =
      ((w.runChoices choices).get b).best_chain.length := by
  have hrange : ∀ x y, w.linked x y → y < w.miner.length :=
    fun x y hxy => linked_lt w y x (hsym x y hxy)
  obtain ⟨hrel, hlink⟩ := relayed_runChoices choices w hrange (relayed_of_empty_chains w hinit)
  refine equal_length_of_quiet _ hquiet hrel ?_ a b ?_
  · intro x y hxy
    exact (hlink y x).mpr (hsym x y ((hlink x y).mp hxy))
  · exact Relation.ReflTransGen.mono (fun x y hxy => (hlink x y).mpr hxy) (hconn a b ha hb)

theorem serviceQueue_drained (w : World) (k : Nat) :
    (w.serviceQueue (w.drainBound + k)).2.simulator.taskQueue = [] := by
  have h := (serviceQueue_stops w.lengthBound w.drainBound w (lengthBound_holds w).1
    (lengthBound_holds w).2 (Nat.le_refl _)).1
  rw [serviceQueue_stable w.drainBound w h k]
  exact h

/-- C18. Length convergence at quiescence: for every state `w` (any miners, any
peer lists with any latencies, any pending tasks, any clock) in which all best
chains are empty, links are symmetric and every miner is reachable from every
miner along links, and for every order of execution of pending tasks after which
nothing is pending, all miners have best chains of the same length, and so all
reported lengths are equal. In particular, for `main` with any number of blocks,
draws and clock, the seven lengths reported after the drain are equal. -/
theorem length_convergence (w : World) (choices : List Nat)
    (hinit : ∀ m ∈ w.miner, m.best_chain = [])
    (hsym : ∀ a b, w.linked a b → w.linked b a)
    (hconn : ∀ a b, a < w.miner.length → b < w.miner.length →
      Relation.ReflTransGen w.linked a b)
    (hquiet : (w.runChoices choices).simulator.taskQueue = []) :
    (∀ a b, a < w.miner.length → b < w.miner.length →
      ((w.runChoices choices).get a).best_chain.length =
        ((w.runChoices choices).get b).best_chain.length) ∧
    (∀ p ∈ report (w.runChoices choices), ∀ q ∈ report (w.runChoices choices), p.2 = q.2) ∧
    (∀ (n_blocks : Int) (draws : Nat → Draw) (readings : Nat → Time) (k : Nat),
      ((mainSetup n_blocks draws readings).serviceQueue
        ((mainSetup n_blocks draws readings).drainBound + k)).2.simulator.taskQueue = [] ∧
      ∀ p ∈ main n_blocks draws readings ((mainSetup n_blocks draws readings).drainBound + k),
        ∀ q ∈ main n_blocks draws readings ((mainSetup n_blocks draws readings).drainBound + k),
          p.2 = q.2) := by
  have hgen := quiet_lengths_equal w choices hinit hsym hconn hquiet
  refine ⟨hgen, ?_, ?_⟩
  · apply report_lengths_equal
    intro a b ha hb
    rw [length_runChoices] at ha hb
    exact hgen a b ha hb
  · intro n_blocks draws readings k
    have hd := serviceQueue_drained (mainSetup n_blocks draws readings) k
    refine ⟨hd, ?_⟩
    obtain ⟨cs, hcs⟩ := serviceQueue_runChoices
      ((mainSetup n_blocks draws readings).drainBound + k) (mainSetup n_blocks draws readings)
    unfold main
    rw [hcs] at hd ⊢
    apply report_lengths_equal
    intro a b ha hb
    rw [length_runChoices] at ha hb
    refine quiet_lengths_equal _ cs (mainSetup_chains_empty n_blocks draws readings)
      (mainSetup_linked_symm n_blocks draws readings) ?_ hd a b ha hb
    intro x y hx hy
    rw [mainSetup_length] at hx hy
    exact mainSetup_connected n_blocks draws readings x y hx hy

/-- C18, witness: the state of `main` with two blocks, found by miner 0 and by
miner 4 one mean interval apart, a clock that returns 0, 2000, 4000, ..., and the
pending tasks executed first in, first out: after sixty picks nothing is pending,
the miners report tips 0, 0, 0, 0, 1, 1, 1 and all of them the length 1. -/
theorem length_convergence_witness :
    ((mainSetup 2 (fun i => { which_miner := 4 * i, block_time := 1 })
        (fun n => 2000 * (n : Int))).runChoices (List.replicate 60 0)).simulator.taskQueue = [] ∧
    report ((mainSetup 2 (fun i => { which_miner := 4 * i, block_time := 1 })
        (fun n => 2000 * (n : Int))).runChoices (List.replicate 60 0)) =
      [(0, 1), (0, 1), (0, 1), (0, 1), (1, 1), (1, 1), (1, 1)] ∧
    (∀ p ∈ report ((mainSetup 2 (fun i => { which_miner := 4 * i, block_time := 1 })
        (fun n => 2000 * (n : Int))).runChoices (List.replicate 60 0)),
      ∀ q ∈ report ((mainSetup 2 (fun i => { which_miner := 4 * i, block_time := 1 })
        (fun n => 2000 * (n : Int))).runChoices (List.replicate 60 0)), p.2 = q.2) :=
  ⟨by decide!, by decide!,
   (length_convergence
      (mainSetup 2 (fun i => { which_miner := 4 * i, block_time := 1 })
        (fun n => 2000 * (n : Int)))
      (List.replicate 60 0)
      (mainSetup_chains_empty _ _ _)
      (mainSetup_linked_symm _ _ _)
      (fun x y hx hy => mainSetup_connected _ _ _ x y
        (by rw [mainSetup_length] at hx; exact hx) (by rw [mainSetup_length] at hy; exact hy))
      (by decide!)).2.1⟩

theorem log2Floor_spec (fuel n : Nat) (hn : n ≤ fuel) (hpos : 0 < n) :
    2 ^ log2Floor fuel n ≤ n ∧ n < 2 ^ (log2Floor fuel n + 1) := by
  induction fuel generalizing n with
  | zero => omega
  | succ f ih =>
    unfold log2Floor
    split
    · rename_i h2
      simp only [Nat.pow_zero, Nat.zero_add, Nat.pow_one]
      omega
    · rename_i h2
      have h := ih (n / 2) (by omega) (by omega)
      rw [Nat.pow_succ, Nat.pow_succ]
      rw [Nat.pow_succ] at h
      omega

theorem binade_lower (a b : Nat) (ha : 0 < a) (hb : 0 < b) (he : 0 ≤ binade a b) :
    b * 2 ^ (binade a b).toNat ≤ a := by
  have hla := log2Floor_spec a a (Nat.le_refl a) ha
  have hlb := log2Floor_spec b b (Nat.le_refl b) hb
  unfold binade at he ⊢
  generalize log2Floor a a = la at *
  generalize log2Floor b b = lb at *
  split at he
  · rename_i htest
    rw [if_pos htest]
    have hlt : lb + 1 ≤ la := by omega
    have e1 : ((la : Int) - (lb : Int) - 1).toNat = la - lb - 1 := by omega
    rw [e1]
    have h1 : b * 2 ^ (la - lb - 1) < 2 ^ (lb + 1) * 2 ^ (la - lb - 1) :=
      Nat.mul_lt_mul_of_pos_right hlb.2 (Nat.pow_pos (by decide))
    rw [← Nat.pow_add] at h1
    have e2 : lb + 1 + (la - lb - 1) = la := by omega
    rw [e2] at h1
    omega
  · rename_i htest
    rw [if_neg htest]
    have hle : lb ≤ la := by omega
    have e1 : ((la : Int) - (lb : Int)).toNat = la - lb := by omega
    have e2 : lb - la = 0 := by omega
    rw [e1]
    rw [e2, Nat.pow_zero, Nat.mul_one] at htest
    omega

theorem roundHalfEven_ge (N D k : Nat) (hD : 0 < D) (h : k * D ≤ N) :
    k ≤ roundHalfEven N D := by
  have hq : k ≤ N / D := (Nat.le_div_iff_mul_le hD).mpr h
  unfold roundHalfEven
  split
  · exact hq
  · split <;> omega

theorem roundHalfEven_le (N D k : Nat) (hD : 0 < D) (h : N ≤ k * D) :
    roundHalfEven N D ≤ k := by
  have hq : N / D ≤ k := by
    apply Nat.div_le_of_le_mul
    rw [Nat.mul_comm]
    exact h
  have hmod : N / D % 2 ≤ 1 := by omega
  unfold roundHalfEven
  by_cases hk : N / D = k
  · have h1 : N / D * D ≤ N := Nat.div_mul_le_self N D
    have h2 : N % D + D * (N / D) = N := Nat.mod_add_div N D
    rw [hk] at h1 h2
    have h3 : D * k = k * D := Nat.mul_comm D k
    have h4 : N % D = 0 := by omega
    rw [h4, hk]
    simp [hD]
  · split
    · exact hq
    · split <;> omega

theorem rat_parts (x : ℚ) (h : 0 < x) :
    0 < x.num.natAbs ∧ 0 < x.den ∧ x = (x.num.natAbs : ℚ) / (x.den : ℚ) := by
  have hnum : 0 < x.num := Rat.num_pos.mpr h
  refine ⟨Int.natAbs_pos.mpr (ne_of_gt hnum), x.den_pos, ?_⟩
  have h1 : ((x.num.natAbs : Nat) : ℚ) = (x.num : ℚ) := by
    rw [Nat.cast_natAbs, abs_of_pos hnum]
  rw [h1]
  exact (Rat.num_div_den x).symm

theorem toDouble_of_pos (x : ℚ) (h : 0 < x) :
    toDouble x =
      if 0 ≤ max (binade x.num.natAbs x.den) (-1022) - 52 then
        ((roundHalfEven x.num.natAbs
            (x.den * 2 ^ (max (binade x.num.natAbs x.den) (-1022) - 52).toNat) *
          2 ^ (max (binade x.num.natAbs x.den) (-1022) - 52).toNat : Nat) : ℚ)
      else
        ((roundHalfEven
            (x.num.natAbs * 2 ^ (-(max (binade x.num.natAbs x.den) (-1022) - 52)).toNat)
            x.den : Nat) : ℚ) /
          ((2 ^ (-(max (binade x.num.natAbs x.den) (-1022) - 52)).toNat : Nat) : ℚ) := by
  unfold toDouble
  rw [if_neg (ne_of_gt h)]
  simp only
  rw [if_neg (not_lt.mpr (le_of_lt h))]

theorem toDouble_bounds (x : ℚ) (h : 0 < x) :
    0 ≤ toDouble x ∧ (1 ≤ x → 1 ≤ toDouble x) ∧
      (∀ M : Nat, M < 2 ^ 52 → x ≤ (M : ℚ) → toDouble x ≤ (M : ℚ)) := by
  obtain ⟨ha, hb, hx⟩ := rat_parts x h
  rw [toDouble_of_pos x h]
  generalize x.num.natAbs = a at *
  generalize x.den = b at *
  have hbq : (0 : ℚ) < (b : ℚ) := by exact_mod_cast hb
  have hone : 1 ≤ x → b ≤ a := by
    intro h1
    rw [hx, le_div_iff₀ hbq, one_mul] at h1
    exact_mod_cast h1
  have hle : ∀ M : Nat, x ≤ (M : ℚ) → a ≤ M * b := by
    intro M hM
    rw [hx, div_le_iff₀ hbq] at hM
    exact_mod_cast hM
  by_cases hs : 0 ≤ max (binade a b) (-1022) - 52
  · rw [if_pos hs]
    have he : 52 ≤ binade a b := by
      rcases le_max_iff.mp (by omega : (52 : Int) ≤ max (binade a b) (-1022)) with h1 | h1
      · exact h1
      · omega
    have hmax : max (binade a b) (-1022) = binade a b := max_eq_left (by omega)
    rw [hmax] at hs ⊢
    have hlow := binade_lower a b ha hb (by omega)
    have hsplit : (binade a b).toNat = (binade a b - 52).toNat + 52 := by omega
    generalize (binade a b - 52).toNat = k at *
    rw [hsplit, Nat.pow_add] at hlow
    have hpk : 0 < 2 ^ k := Nat.pow_pos (by decide)
    refine ⟨Nat.cast_nonneg _, ?_, ?_⟩
    · intro _
      have hn : 1 ≤ roundHalfEven a (b * 2 ^ k) := by
        apply roundHalfEven_ge _ _ _ (Nat.mul_pos hb hpk)
        have : b * 2 ^ k ≤ b * (2 ^ k * 2 ^ 52) :=
          Nat.mul_le_mul_left b (Nat.le_mul_of_pos_right _ (by decide))
        omega
      have : 1 ≤ roundHalfEven a (b * 2 ^ k) * 2 ^ k := Nat.mul_pos hn hpk
      exact_mod_cast this
    · intro M hM hxM
      exfalso
      have h1 := hle M hxM
      have h2 : b * 2 ^ 52 ≤ b * (2 ^ k * 2 ^ 52) :=
        Nat.mul_le_mul_left b (Nat.le_mul_of_pos_left _ hpk)
      have h3 : M * b < 2 ^ 52 * b := Nat.mul_lt_mul_of_pos_right hM hb
      have h4 : b * 2 ^ 52 = 2 ^ 52 * b := Nat.mul_comm _ _
      omega
  · rw [if_neg hs]
    generalize (-(max (binade a b) (-1022) - 52)).toNat = k at *
    have hpk : 0 < 2 ^ k := Nat.pow_pos (by decide)
    have hpq : (0 : ℚ) < ((2 ^ k : Nat) : ℚ) := by exact_mod_cast hpk
    refine ⟨div_nonneg (Nat.cast_nonneg _) (le_of_lt hpq), ?_, ?_⟩
    · intro h1
      have hn : 2 ^ k ≤ roundHalfEven (a * 2 ^ k) b := by
        apply roundHalfEven_ge _ _ _ hb
        rw [Nat.mul_comm (2 ^ k) b]
        exact Nat.mul_le_mul_right _ (hone h1)
      rw [le_div_iff₀ hpq, one_mul]
      exact_mod_cast hn
    · intro M _ hxM
      have hn : roundHalfEven (a * 2 ^ k) b ≤ M * 2 ^ k := by
        apply roundHalfEven_le _ _ _ hb
        have h1 := Nat.mul_le_mul_right (2 ^ k) (hle M hxM)
        have h2 : M * b * 2 ^ k = M * 2 ^ k * b := Nat.mul_right_comm _ _ _
        omega
      rw [div_le_iff₀ hpq]
      exact_mod_cast hn

theorem toDouble_zero : toDouble 0 = 0 := by
  unfold toDouble
  rw [if_pos rfl]

theorem truncToInt_of_fit (d : ℚ) (h0 : 0 ≤ d) (h1 : d ≤ 2147483647) :
    truncToInt d = ⌊d⌋ ∧ 0 ≤ truncToInt d := by
  have hfloor : Int.tdiv d.num d.den = ⌊d⌋ := by
    rw [Rat.floor_def, Int.tdiv_eq_ediv (Rat.num_nonneg.mpr h0) (Int.ofNat_nonneg _)]
  have hf0 : 0 ≤ ⌊d⌋ := Int.floor_nonneg.mpr h0
  have hf1 : ⌊d⌋ ≤ 2147483647 := by
    have h2 : ((⌊d⌋ : Int) : ℚ) ≤ 2147483647 := le_trans (Int.floor_le d) h1
    exact_mod_cast h2
  unfold truncToInt
  rw [hfloor, if_pos ⟨by omega, hf1⟩]
  exact ⟨rfl, hf0⟩

/-- The step of the root times for a non-negative sample whose product with 600
is at most `INT_MAX`: it is not negative, and at least 1 when the sample is at
least 1/600. -/
theorem root_step (s : ℚ) (h0 : 0 ≤ s) (hfit : s * 600 ≤ 2147483647) :
    0 ≤ truncToInt (toDouble (s * 600)) ∧
      (1 / 600 ≤ s → 1 ≤ truncToInt (toDouble (s * 600))) := by
  have hx0 : 0 ≤ s * 600 := mul_nonneg h0 (by norm_num)
  rcases eq_or_lt_of_le hx0 with hz | hpos
  · rw [← hz, toDouble_zero]
    refine ⟨(truncToInt_of_fit 0 (le_refl 0) (by norm_num)).2, ?_⟩
    intro h1
    have : (1 : ℚ) ≤ s * 600 := by linarith
    rw [← hz] at this
    exact absurd this (by norm_num)
  · obtain ⟨hd0, hd1, hdM⟩ := toDouble_bounds (s * 600) hpos
    have hdfit : toDouble (s * 600) ≤ 2147483647 := by
      have := hdM 2147483647 (by norm_num) (by exact_mod_cast hfit)
      exact_mod_cast this
    obtain ⟨hfl, hnn⟩ := truncToInt_of_fit _ hd0 hdfit
    refine ⟨hnn, ?_⟩
    intro h1
    rw [hfl]
    apply Int.le_floor.mpr
    have : (1 : ℚ) ≤ s * 600 := by linarith
    exact_mod_cast hd1 this

theorem rootTimes_ge (draws : Nat → Draw) (hnn : ∀ j, 0 ≤ (draws j).block_time)
    (hfit : ∀ j, (draws j).block_time * 600 ≤ 2147483647)
    (count i : Nat) (t : Time) : ∀ x ∈ rootTimes draws count i t, t ≤ x := by
  induction count generalizing i t with
  | zero =>
    intro x hx
    exact absurd hx (List.not_mem_nil x)
  | succ n ih =>
    intro x hx
    have h0 := (root_step _ (hnn i) (hfit i)).1
    simp only [rootTimes, List.mem_cons] at hx
    rcases hx with h | h
    · rw [h]
      exact Int.le_add_of_nonneg_right h0
    · exact Int.le_trans (Int.le_add_of_nonneg_right h0) (ih (i + 1) _ x h)

theorem rootTimes_gt (draws : Nat → Draw) (hnn : ∀ j, 1 / 600 ≤ (draws j).block_time)
    (hfit : ∀ j, (draws j).block_time * 600 ≤ 2147483647)
    (count i : Nat) (t : Time) : ∀ x ∈ rootTimes draws count i t, t < x := by
  induction count generalizing i t with
  | zero =>
    intro x hx
    exact absurd hx (List.not_mem_nil x)
  | succ n ih =>
    intro x hx
    have h1 : 1 ≤ truncToInt (toDouble ((draws i).block_time * 600)) :=
      (root_step _ (le_trans (by norm_num) (hnn i)) (hfit i)).2 (hnn i)
    have h2 : t < t + truncToInt (toDouble ((draws i).block_time * 600)) :=
      Int.lt_add_of_pos_right t (Int.lt_of_lt_of_le Int.zero_lt_one h1)
    simp only [rootTimes, List.mem_cons] at hx
    rcases hx with h | h
    · rw [h]
      exact h2
    · exact Int.lt_trans h2 (ih (i + 1) _ x h)

theorem rootTimes_pairwise_le (draws : Nat → Draw) (hnn : ∀ j, 0 ≤ (draws j).block_time)
    (hfit : ∀ j, (draws j).block_time * 600 ≤ 2147483647)
    (count i : Nat) (t : Time) : (rootTimes draws count i t).Pairwise (fun a b => a ≤ b) := by
  induction count generalizing i t with
  | zero => exact List.Pairwise.nil
  | succ n ih =>
    unfold rootTimes
    exact List.Pairwise.cons (rootTimes_ge draws hnn hfit n (i + 1) _) (ih (i + 1) _)

theorem rootTimes_pairwise_lt (draws : Nat → Draw) (hnn : ∀ j, 1 / 600 ≤ (draws j).block_time)
    (hfit : ∀ j, (draws j).block_time * 600 ≤ 2147483647)
    (count i : Nat) (t : Time) : (rootTimes draws count i t).Pairwise (fun a b => a < b) := by
  induction count generalizing i t with
  | zero => exact List.Pairwise.nil
  | succ n ih =>
    unfold rootTimes
    exact List.Pairwise.cons (rootTimes_gt draws hnn hfit n (i + 1) _) (ih (i + 1) _)

/-- C14 (as the code has it). Root event times: for every number of blocks and
all draws whose inter-arrival samples are not negative and whose products with
600 are at most `INT_MAX` (2147483647), the times given to the root `FindBlock`
tasks form a non-decreasing sequence (for all `i < j` the time of event `i` is
less than or equal to the time of event `j`), and a strictly increasing one when
every sample is at least 1/600; there are as many times as loop iterations, the
first is the reading of the clock plus the `double` product of the first sample
and 600 converted to `int`, and each other one is the previous time plus the
`double` product of its sample and 600 converted to `int`. -/
theorem root_times_nondecreasing (n_blocks : Int) (draws : Nat → Draw) (readings : Nat → Time)
    (hnn : ∀ i, 0 ≤ (draws i).block_time)
    (hfit : ∀ i, (draws i).block_time * 600 ≤ 2147483647) :
    ((mainSetup n_blocks draws readings).simulator.taskQueue.map (fun e => e.time)).Pairwise
      (fun a b => a ≤ b) ∧
    ((∀ i, 1 / 600 ≤ (draws i).block_time) →
      ((mainSetup n_blocks draws readings).simulator.taskQueue.map (fun e => e.time)).Pairwise
        (fun a b => a < b)) ∧
    ((mainSetup n_blocks draws readings).simulator.taskQueue.map (fun e => e.time)).length =
      n_blocks.toNat ∧
    (0 < n_blocks.toNat →
      ((mainSetup n_blocks draws readings).simulator.taskQueue.map (fun e => e.time)).getD 0 0 =
        readings 0 + truncToInt (toDouble ((draws 0).block_time * 600))) ∧
    (∀ k, k + 1 < n_blocks.toNat →
      ((mainSetup n_blocks draws readings).simulator.taskQueue.map
          (fun e => e.time)).getD (k + 1) 0 =
        ((mainSetup n_blocks draws readings).simulator.taskQueue.map (fun e => e.time)).getD k 0 +
          truncToInt (toDouble ((draws (k + 1)).block_time * 600))) := by
  have hq : (mainSetup n_blocks draws readings).simulator.taskQueue.map (fun e => e.time) =
      rootTimes draws n_blocks.toNat 0 (readings 0) := by
    rw [mainSetup_simulator, scheduleRoots_times]
    rfl
  rw [hq]
  refine ⟨rootTimes_pairwise_le draws hnn hfit _ _ _,
    fun h => rootTimes_pairwise_lt draws h hfit _ _ _,
    rootTimes_length draws _ _ _, rootTimes_head draws _ _ _, ?_⟩
  intro k hk
  have h := rootTimes_next draws n_blocks.toNat 0 (readings 0) k hk
  rw [Nat.zero_add] at h
  exact h

/-- C14, witness: three blocks whose samples are the `double` nearest to 0.015
(8646911284551352 / 2^59), 1 and 1/2, and a clock that reads 0. The first product
is 9 as a `double` (the exact product is just below 9), so the root times are 9,
609 and 909. -/
theorem root_times_nondecreasing_witness :
    (mainSetup 3
        (fun i => { which_miner := i,
                    block_time := [8646911284551352 / 576460752303423488, 1, 1 / 2].getD i 0 })
        (fun _ => 0)).simulator.taskQueue.map (fun e => e.time) = [9, 609, 909] ∧
    ((mainSetup 3
        (fun i => { which_miner := i,
                    block_time := [8646911284551352 / 576460752303423488, 1, 1 / 2].getD i 0 })
        (fun _ => 0)).simulator.taskQueue.map (fun e => e.time)).Pairwise (fun a b => a ≤ b) :=
  ⟨by decide!,
   (root_times_nondecreasing 3
      (fun i => { which_miner := i,
                  block_time := [8646911284551352 / 576460752303423488, 1, 1 / 2].getD i 0 })
      (fun _ => 0)
      (by
        intro i
        show (0 : ℚ) ≤ [8646911284551352 / 576460752303423488, 1, 1 / 2].getD i 0
        rcases i with _ | _ | _ | i <;> norm_num [List.getD])
      (by
        intro i
        show ([8646911284551352 / 576460752303423488, 1, 1 / 2] : List ℚ).getD i 0 * 600 ≤
          2147483647
        rcases i with _ | _ | _ | i <;> norm_num [List.getD])).1⟩

/-- C14, counterexample. Two blocks whose samples are 1/1024 of the mean
interval: the products, 75/128, convert to 0, both root events get the time 0
read from the clock, and the sequence of root times is not strictly increasing.
And two blocks whose samples are 1 and 4000001: the second product, 2400000600, is
no `int`, the conversion gives `INT_MIN`, and the second root time, -2147483048,
is before the first, 600. -/
theorem root_times_counterexample :
    (mainSetup 2 (fun _ => { which_miner := 0, block_time := 1 / 1024 })
        (fun _ => 0)).simulator.taskQueue.map (fun e => e.time) = [0, 0] ∧
    ¬ ((mainSetup 2 (fun _ => { which_miner := 0, block_time := 1 / 1024 })
        (fun _ => 0)).simulator.taskQueue.map (fun e => e.time)).Pairwise (fun a b => a < b) ∧
    (mainSetup 2 (fun i => { which_miner := 0, block_time := [1, 4000001].getD i 0 })
        (fun _ => 0)).simulator.taskQueue.map (fun e => e.time) = [600, -2147483048] ∧
    ¬ ((mainSetup 2 (fun i => { which_miner := 0, block_time := [1, 4000001].getD i 0 })
        (fun _ => 0)).simulator.taskQueue.map (fun e => e.time)).Pairwise (fun a b => a < b) := by
  have h1 : (mainSetup 2 (fun _ => { which_miner := 0, block_time := 1 / 1024 })
      (fun _ => 0)).simulator.taskQueue.map (fun e => e.time) = [0, 0] := by
    decide!
  have h2 : (mainSetup 2 (fun i => { which_miner := 0, block_time := [1, 4000001].getD i 0 })
      (fun _ => 0)).simulator.taskQueue.map (fun e => e.time) = [600, -2147483048] := by
    decide!
  refine ⟨h1, ?_, h2, ?_⟩
  · rw [h1]
    simp
  · rw [h2]
    simp

/-- C16 (as the code has it). Selection weights: the seven entries of the array
`probabilities` of `main`, 0.3 for miner 0 and 0.1 for each of miners 1 to 6,
taken as exact rationals, sum to 9/10. -/
theorem probabilities_sum :
    probabilities = 3 / 10 :: List.replicate 6 (1 / 10) ∧ probabilities.sum = 9 / 10 := by
  refine ⟨rfl, ?_⟩
  norm_num [probabilities]

/-- C16, counterexample. The seven weights of `main`, taken as exact rationals, do
not sum to 1. -/
theorem probabilities_sum_counterexample : probabilities.sum ≠ 1 := by
  norm_num [probabilities]

end MiningSim
